import Mathlib

/-!
# countdown-gen: duration breakdown, tick loop and group layout

A shallow embedding of `app.go`.

* `time.Duration` is a signed 64-bit nanosecond count, embedded as `Int`; the
  one subtraction the program performs on it goes through `wrap64`.
* `float64` values are embedded as the rational numbers they denote.  Every
  floating-point operation is the exact rational operation followed by
  `roundF64` (IEEE 754 binary64, round to nearest, ties to even).  All
  magnitudes that occur stay below `2 ^ 64`, so overflow to infinity cannot
  happen and is not represented.
* `int` is the 64-bit Go `int`; `/` and `%` on it truncate towards zero
  (`Int.tdiv`, `Int.tmod`).
* The font collaborator is a parameter `getLength : String → Int → Int`
  (text and point size to pixel width); drawing on the canvas is recorded as
  the list of `drawText` calls made on it.
-/

namespace Countdown

/-! ## Package-level configuration (`app.go`, lines 20-38) -/

/-- Tick budget: `var gifDuration = 30`. -/
def gifDuration : Nat := 30

/-- Left margin: `var textOriginOffset = 50`. -/
def textOriginOffset : Int := 50

/-- Canvas height: `var imageHeight = 150`. -/
def imageHeight : Int := 150

/-- Canvas width: `var imageWidth = 530 + textOriginOffset`. -/
def imageWidth : Int := 530 + textOriginOffset

/-- Point size of the values: `var fontSize = 25`. -/
def fontSize : Int := 25

/-- Point size of the labels: `var labelSize = 15`. -/
def labelSize : Int := 15

/-- Space between value and label: `var valLabelPadding = 20`. -/
def valLabelPadding : Int := 20

/-- Spacing to the next group: `var groupPadding = 50`. -/
def groupPadding : Int := 50

/-! ## binary64 arithmetic -/

/-- Nearest integer to `q`, a tie going to the even neighbour. -/
def roundHalfEven (q : ℚ) : ℤ :=
  if q - ⌊q⌋ < 1 / 2 then ⌊q⌋
  else if 1 / 2 < q - ⌊q⌋ then ⌊q⌋ + 1
  else if ⌊q⌋ % 2 = 0 then ⌊q⌋ else ⌊q⌋ + 1

/-- Exponent of the unit in the last place of the binary64 binade holding `x`:
53-bit significands, smallest exponent `-1074` (subnormals). -/
def f64Exp (x : ℚ) : ℤ := max (Int.log 2 |x| - 52) (-1074)

/-- The binary64 value nearest to `x` (ties to even). -/
def roundF64 (x : ℚ) : ℚ := (roundHalfEven (x / 2 ^ f64Exp x) : ℚ) * 2 ^ f64Exp x

/-- The rational `a` is a binary64 value: an integer significand of at most 53
bits times a power of two no smaller than `2 ^ (-1074)`. -/
def IsF64 (a : ℚ) : Prop := ∃ m k : ℤ, |m| < 2 ^ 53 ∧ -1074 ≤ k ∧ a = m * 2 ^ k

/-- Go conversion `float64(n)` of an integer. -/
def float64 (n : Int) : ℚ := roundF64 (n : ℚ)

/-- Go conversion `int(x)` of a float: the fraction is discarded. -/
def int (x : ℚ) : Int := if 0 ≤ x then ⌊x⌋ else ⌈x⌉

/-- Two's-complement wrap of an integer into the `int64` range. -/
def wrap64 (n : Int) : Int := (n + 2 ^ 63) % 2 ^ 64 - 2 ^ 63

/-! ## Package `time` -/

/-- The constant `time.Second`, in nanoseconds. -/
def Second : Int := 1000000000

/-- The constant `time.Minute`. -/
def Minute : Int := 60 * Second

/-- The constant `time.Hour`. -/
def Hour : Int := 60 * Minute

/-- Largest `time.Duration`. -/
def maxDuration : Int := 2 ^ 63 - 1

/-- Smallest `time.Duration`. -/
def minDuration : Int := -2 ^ 63

/-- The method `Duration.Seconds`:
`sec := d / Second; nsec := d % Second; return float64(sec) + float64(nsec)/1e9`. -/
def Duration.Seconds (d : Int) : ℚ :=
  let sec := Int.tdiv d Second
  let nsec := Int.tmod d Second
  roundF64 (float64 sec + roundF64 (float64 nsec / 1000000000))

/-- The method `Duration.Minutes`:
`min := d / Minute; nsec := d % Minute; return float64(min) + float64(nsec)/(60*1e9)`. -/
def Duration.Minutes (d : Int) : ℚ :=
  let min := Int.tdiv d Minute
  let nsec := Int.tmod d Minute
  roundF64 (float64 min + roundF64 (float64 nsec / 60000000000))

/-- The method `Duration.Hours`:
`hour := d / Hour; nsec := d % Hour; return float64(hour) + float64(nsec)/(60*60*1e9)`. -/
def Duration.Hours (d : Int) : ℚ :=
  let hour := Int.tdiv d Hour
  let nsec := Int.tmod d Hour
  roundF64 (float64 hour + roundF64 (float64 nsec / 3600000000000))

/-- The method `Time.Sub` on instants of second precision (given as seconds
since the epoch): the difference as a `Duration`, saturated at the largest
and smallest representable durations. -/
def Time.Sub (t u : Int) : Int :=
  let d := (t - u) * Second
  if d < minDuration then minDuration else if maxDuration < d then maxDuration else d

/-! ## `getDaysHoursMinutesSeconds` (`app.go`, lines 225-244) -/

/-- The function `getDaysHoursMinutesSeconds`. -/
def getDaysHoursMinutesSeconds (duration : Int) : Int × Int × Int × Int :=
  let totalDays := int (roundF64 (Duration.Hours duration / 24))
  let totalDays := if totalDays < 0 then 0 else totalDays
  let totalHours := Int.tmod (int (Duration.Hours duration)) 24
  let totalHours := if totalHours < 0 then 0 else totalHours
  let totalMinutes := Int.tmod (int (Duration.Minutes duration)) 60
  let totalMinutes := if totalMinutes < 0 then 0 else totalMinutes
  let totalSeconds := Int.tmod (int (Duration.Seconds duration)) 60
  let totalSeconds := if totalSeconds < 0 then 0 else totalSeconds
  (totalDays, totalHours, totalMinutes, totalSeconds)

/-! ## Drawing (`app.go`, lines 190-206) -/

/-- A colour value of package `image/color`. -/
inductive Color where
  | Gray16 (Y : Nat)
  | RGBA (R G B A : Nat)
deriving DecidableEq, Repr

/-- The colour `color.White`. -/
def Color.White : Color := Color.Gray16 65535

/-- One call `drawText(xOffset, yOffset, c, text, size)`: `text` drawn at the
point `(xOffset, yOffset)` at point size `size`. -/
structure DrawText where
  xOffset : Int
  yOffset : Int
  text : String
  size : Int
deriving DecidableEq, Repr

/-- The function `drawGroup`: the label, then the value centred above it. -/
def drawGroup (getLength : String → Int → Int) (xOffset yOffset : Int)
    (labelText valueText : String) : List DrawText :=
  let labelWidth := Int.tdiv (getLength labelText labelSize) 2
  let valueWidth := Int.tdiv (getLength valueText fontSize) 2
  let localOffset := labelWidth - valueWidth
  [ DrawText.mk xOffset (yOffset + fontSize + labelSize + valLabelPadding) labelText labelSize,
    DrawText.mk (xOffset + localOffset) (yOffset + fontSize) valueText fontSize ]

/-! ## The tick loop of `main` (`app.go`, lines 82-170) -/

/-- The local type `Item` of `main`. -/
structure Item where
  Label : String
  Value : Int
deriving DecidableEq, Repr

/-- A paletted image: its bounds, its palette and the text drawn on it. -/
structure Paletted where
  width : Int
  height : Int
  Palette : List Color
  drawn : List DrawText
deriving DecidableEq, Repr

/-- The animation `gif.GIF`. -/
structure GIF where
  Image : List Paletted
  Delay : List Int
deriving DecidableEq, Repr

/-- Body of `for _, item := range items`: one group is drawn at the cursor
`xOffset`, then the cursor is advanced.  Returns the new cursor and the calls
made. -/
def placeItem (getLength : String → Int → Int) (xOffset : Int) (item : Item) :
    Int × List DrawText :=
  let valueText := toString item.Value
  let yOffset := 50
  let calls := drawGroup getLength xOffset yOffset item.Label valueText
  (xOffset + (Int.tdiv (getLength item.Label fontSize) 2 + groupPadding), calls)

/-- The loop `for _, item := range items`, from cursor `xOffset` with the
calls `drawn` already made. -/
def placeItems (getLength : String → Int → Int) :
    List Item → Int → List DrawText → Int × List DrawText
  | [], xOffset, drawn => (xOffset, drawn)
  | item :: rest, xOffset, drawn =>
    let r := placeItem getLength xOffset item
    placeItems getLength rest r.1 (drawn ++ r.2)

/-- The slice `items` built from a breakdown. -/
def mkItems (t : Int × Int × Int × Int) : List Item :=
  [ Item.mk "days" t.1, Item.mk "hours" t.2.1, Item.mk "minutes" t.2.2.1,
    Item.mk "seconds" t.2.2.2 ]

/-- What one iteration of the tick loop computes: its locals `expired`,
`items` and `img`, and the value of `duration` it leaves behind. -/
structure Tick where
  expired : Bool
  items : List Item
  img : Paletted
  duration : Int
deriving DecidableEq, Repr

/-- Lines 119-161: the body of the tick loop up to the two appends, run with
`duration` as the remaining duration. -/
def tick (getLength : String → Int → Int) (duration : Int) : Tick :=
  let black := Color.RGBA 0 0 0 255
  let expired := decide (duration ≤ 0)
  let black := if expired then Color.RGBA 210 210 210 255 else black
  let duration := wrap64 (duration - Second)
  let items := mkItems (getDaysHoursMinutesSeconds duration)
  let xOffset := textOriginOffset
  { expired := expired
    items := items
    img := Paletted.mk imageWidth imageHeight [Color.White, black]
      (placeItems getLength items xOffset []).2
    duration := duration }

/-- The loop `for i := 0; i < gifDuration; i++` with `n` iterations left to
run, from the state `duration`, `anim`; `log` collects the iterations run so
far. -/
def tickLoop (getLength : String → Int → Int) :
    Nat → Int → GIF → List Tick → GIF × List Tick
  | 0, _, anim, log => (anim, log)
  | n + 1, duration, anim, log =>
    let t := tick getLength duration
    let anim := GIF.mk (anim.Image ++ [t.img]) (anim.Delay ++ [100])
    if t.expired then (anim, log ++ [t])
    else tickLoop getLength n t.duration anim (log ++ [t])

/-- Lines 82-86: the target is clamped to the current instant, and `duration`
is what remains (instants in seconds since the epoch). -/
def remaining (targetDate currentDate : Int) : Int :=
  let targetDate := if targetDate < currentDate then currentDate else targetDate
  Time.Sub targetDate currentDate

/-- Lines 89-170: the animation `main` builds from the remaining `duration`,
with the iterations the tick loop ran. -/
def assemble (getLength : String → Int → Int) (duration : Int) : GIF × List Tick :=
  tickLoop getLength gifDuration duration (GIF.mk [] []) []

/-- The iterations of the tick loop, first to last: `n` iterations left,
remaining duration `duration`. -/
def ticks (getLength : String → Int → Int) : Nat → Int → List Tick
  | 0, _ => []
  | n + 1, duration =>
    let t := tick getLength duration
    if t.expired then [t] else t :: ticks getLength n t.duration

/-- A sample text measurer: every glyph is as wide as the point size. -/
def monoLength (text : String) (size : Int) : Int := (text.length : Int) * size

/-! ## Rounding to the nearest integer -/

theorem floor_le_roundHalfEven (q : ℚ) : ⌊q⌋ ≤ roundHalfEven q := by
  unfold roundHalfEven
  split_ifs <;> omega

theorem roundHalfEven_le_ceil (q : ℚ) : roundHalfEven q ≤ ⌈q⌉ := by
  unfold roundHalfEven
  have hfc : ⌊q⌋ ≤ ⌈q⌉ := Int.floor_le_ceil q
  by_cases h1 : q - ⌊q⌋ < 1 / 2
  · simp only [h1, if_true]
    exact hfc
  · have hlt : (⌊q⌋ : ℚ) < q := by linarith
    have hc : ⌊q⌋ < ⌈q⌉ := Int.lt_ceil.mpr hlt
    simp only [h1, if_false]
    split_ifs <;> omega

theorem le_roundHalfEven {n : ℤ} {q : ℚ} (h : (n : ℚ) ≤ q) : n ≤ roundHalfEven q :=
  (Int.le_floor.mpr h).trans (floor_le_roundHalfEven q)

theorem roundHalfEven_le {n : ℤ} {q : ℚ} (h : q ≤ (n : ℚ)) : roundHalfEven q ≤ n :=
  (roundHalfEven_le_ceil q).trans (Int.ceil_le.mpr h)

theorem roundHalfEven_eq_of_abs_lt {q : ℚ} {m : ℤ} (h : |q - m| < 1 / 2) :
    roundHalfEven q = m := by
  have h1 := (abs_lt.mp h).1
  have h2 := (abs_lt.mp h).2
  have hf1 : ⌊q⌋ < m + 1 := Int.floor_lt.mpr (by push_cast; linarith)
  have hf2 : m - 1 ≤ ⌊q⌋ := Int.le_floor.mpr (by push_cast; linarith)
  have hfl : (⌊q⌋ : ℚ) ≤ q := Int.floor_le q
  have hfu : q < ⌊q⌋ + 1 := Int.lt_floor_add_one q
  unfold roundHalfEven
  rcases (by omega : ⌊q⌋ = m ∨ ⌊q⌋ = m - 1) with hm | hm
  · have : q - ⌊q⌋ < 1 / 2 := by rw [hm]; linarith
    rw [if_pos this]
    exact hm
  · have hq : (⌊q⌋ : ℚ) = m - 1 := by rw [hm]; push_cast; ring
    have h3 : ¬ (q - ⌊q⌋ < 1 / 2) := by rw [hq]; linarith
    have h4 : 1 / 2 < q - ⌊q⌋ := by rw [hq]; linarith
    rw [if_neg h3, if_pos h4, hm]
    ring

/-! ## Rounding to binary64 -/

theorem two_zpow_pos (e : ℤ) : (0 : ℚ) < 2 ^ e := zpow_pos (by norm_num) e

theorem roundF64_nonpos {x : ℚ} (h : x ≤ 0) : roundF64 x ≤ 0 := by
  unfold roundF64
  have hp := two_zpow_pos (f64Exp x)
  have hq : x / 2 ^ f64Exp x ≤ ((0 : ℤ) : ℚ) := by
    simpa using div_nonpos_of_nonpos_of_nonneg h hp.le
  have hr : (roundHalfEven (x / 2 ^ f64Exp x) : ℚ) ≤ 0 := by
    exact_mod_cast roundHalfEven_le hq
  exact mul_nonpos_iff.mpr (Or.inr ⟨hr, hp.le⟩)

theorem roundF64_nonneg {x : ℚ} (h : 0 ≤ x) : 0 ≤ roundF64 x := by
  unfold roundF64
  have hp := two_zpow_pos (f64Exp x)
  have hq : ((0 : ℤ) : ℚ) ≤ x / 2 ^ f64Exp x := by
    simpa using div_nonneg h hp.le
  have hr : (0 : ℚ) ≤ (roundHalfEven (x / 2 ^ f64Exp x) : ℚ) := by
    exact_mod_cast le_roundHalfEven hq
  exact mul_nonneg hr hp.le

theorem roundF64_zero : roundF64 0 = 0 :=
  le_antisymm (roundF64_nonpos le_rfl) (roundF64_nonneg le_rfl)

theorem f64Exp_ge (x : ℚ) : -1074 ≤ f64Exp x := le_max_right _ _

/-- Above the subnormal range a positive `x` fills its binade from the bottom. -/
theorem zpow_le_of_f64Exp {x : ℚ} (hx : 0 < x) (he : -1074 < f64Exp x) :
    (2 : ℚ) ^ (f64Exp x + 52) ≤ x := by
  have hlog : f64Exp x = Int.log 2 |x| - 52 := by
    unfold f64Exp at he ⊢
    rcases max_cases (Int.log 2 |x| - 52) (-1074) with ⟨h, _⟩ | ⟨h, _⟩
    · exact h
    · rw [h] at he
      exact absurd he (lt_irrefl _)
  have h := Int.zpow_log_le_self (b := 2) (r := |x|) (by norm_num) (abs_pos.mpr hx.ne.symm)
  rw [abs_of_pos hx] at h
  rw [hlog, abs_of_pos hx]
  simpa using h

/-- A binary64 value below a binade's lower end is a multiple of no coarser
unit; one at or above it is a multiple of the binade's unit. -/
theorem isF64_lt_zpow {a : ℚ} {m k : ℤ} (hm : |m| < 2 ^ 53) (ha : a = m * 2 ^ k) :
    a < 2 ^ (k + 53) := by
  have hp := two_zpow_pos k
  have hm1 : (m : ℚ) < 2 ^ 53 := by exact_mod_cast (abs_lt.mp hm).2
  rw [ha, zpow_add₀ (by norm_num : (2 : ℚ) ≠ 0), mul_comm ((2 : ℚ) ^ k)]
  have h53 : ((2 : ℚ) ^ (53 : ℤ)) = 2 ^ 53 := by norm_num
  rw [h53]
  exact mul_lt_mul_of_pos_right hm1 hp

/-- Dividing a binary64 value by a unit no finer than its own gives an integer. -/
theorem isF64_div_int {a : ℚ} {m k e : ℤ} (ha : a = m * 2 ^ k) (hek : e ≤ k) :
    a / 2 ^ e = ((m * 2 ^ (k - e).toNat : ℤ) : ℚ) := by
  have hp := two_zpow_pos e
  have hk : k = e + ((k - e).toNat : ℤ) := by
    rw [Int.toNat_of_nonneg (by omega)]
    ring
  rw [ha]
  conv_lhs => rw [hk]
  rw [zpow_add₀ (by norm_num : (2 : ℚ) ≠ 0), zpow_natCast]
  push_cast
  field_simp
  ring

/-- Rounding never crosses a binary64 value from above. -/
theorem le_roundF64 {a x : ℚ} (ha : IsF64 a) (hax : a ≤ x) (hx : 0 ≤ x) :
    a ≤ roundF64 x := by
  rcases le_or_lt a 0 with ha0 | ha0
  · exact ha0.trans (roundF64_nonneg hx)
  have hx0 : 0 < x := ha0.trans_le hax
  obtain ⟨m, k, hm, hk, hmk⟩ := ha
  have hp := two_zpow_pos (f64Exp x)
  unfold roundF64
  rcases le_or_lt (f64Exp x) k with hek | hek
  · have hdiv := isF64_div_int hmk hek
    have hle : ((m * 2 ^ (k - f64Exp x).toNat : ℤ) : ℚ) ≤ x / 2 ^ f64Exp x := by
      rw [← hdiv]
      exact div_le_div_of_nonneg_right hax hp.le
    have hr : ((m * 2 ^ (k - f64Exp x).toNat : ℤ) : ℚ)
        ≤ (roundHalfEven (x / 2 ^ f64Exp x) : ℚ) := by
      exact_mod_cast le_roundHalfEven hle
    calc a = a / 2 ^ f64Exp x * 2 ^ f64Exp x := by field_simp
      _ = ((m * 2 ^ (k - f64Exp x).toNat : ℤ) : ℚ) * 2 ^ f64Exp x := by rw [hdiv]
      _ ≤ (roundHalfEven (x / 2 ^ f64Exp x) : ℚ) * 2 ^ f64Exp x :=
        mul_le_mul_of_nonneg_right hr hp.le
  · have hlow := zpow_le_of_f64Exp hx0 (by omega)
    have h52 : (((2 : ℤ) ^ 52 : ℤ) : ℚ) ≤ x / 2 ^ f64Exp x := by
      rw [le_div_iff₀ hp]
      calc (((2 : ℤ) ^ 52 : ℤ) : ℚ) * 2 ^ f64Exp x = 2 ^ (f64Exp x + 52) := by
            rw [zpow_add₀ (by norm_num : (2 : ℚ) ≠ 0)]
            norm_num
            ring
        _ ≤ x := hlow
    have hr : (((2 : ℤ) ^ 52 : ℤ) : ℚ) ≤ (roundHalfEven (x / 2 ^ f64Exp x) : ℚ) := by
      exact_mod_cast le_roundHalfEven h52
    have ha1 : a < 2 ^ (k + 53) := isF64_lt_zpow hm hmk
    have ha2 : (2 : ℚ) ^ (k + 53) ≤ 2 ^ (f64Exp x + 52) :=
      zpow_le_zpow_right₀ (by norm_num) (by omega)
    calc a ≤ 2 ^ (f64Exp x + 52) := (ha1.trans_le ha2).le
      _ = (((2 : ℤ) ^ 52 : ℤ) : ℚ) * 2 ^ f64Exp x := by
            rw [zpow_add₀ (by norm_num : (2 : ℚ) ≠ 0)]
            norm_num
            ring
      _ ≤ (roundHalfEven (x / 2 ^ f64Exp x) : ℚ) * 2 ^ f64Exp x :=
        mul_le_mul_of_nonneg_right hr hp.le

/-- Rounding never crosses a binary64 value from below. -/
theorem roundF64_le {b x : ℚ} (hb : IsF64 b) (hxb : x ≤ b) (hx : 0 ≤ x) :
    roundF64 x ≤ b := by
  rcases hx.eq_or_lt with hx0 | hx0
  · rw [← hx0, roundF64_zero]
    rw [← hx0] at hxb
    exact hxb
  obtain ⟨m, k, hm, hk, hmk⟩ := hb
  have hp := two_zpow_pos (f64Exp x)
  unfold roundF64
  rcases le_or_lt (f64Exp x) k with hek | hek
  · have hdiv := isF64_div_int hmk hek
    have hle : x / 2 ^ f64Exp x ≤ ((m * 2 ^ (k - f64Exp x).toNat : ℤ) : ℚ) := by
      rw [← hdiv]
      exact div_le_div_of_nonneg_right hxb hp.le
    have hr : (roundHalfEven (x / 2 ^ f64Exp x) : ℚ)
        ≤ ((m * 2 ^ (k - f64Exp x).toNat : ℤ) : ℚ) := by
      exact_mod_cast roundHalfEven_le hle
    calc (roundHalfEven (x / 2 ^ f64Exp x) : ℚ) * 2 ^ f64Exp x
        ≤ ((m * 2 ^ (k - f64Exp x).toNat : ℤ) : ℚ) * 2 ^ f64Exp x :=
          mul_le_mul_of_nonneg_right hr hp.le
      _ = b / 2 ^ f64Exp x * 2 ^ f64Exp x := by rw [hdiv]
      _ = b := by field_simp
  · exfalso
    have hlow := zpow_le_of_f64Exp hx0 (by omega)
    have hb1 : b < 2 ^ (k + 53) := isF64_lt_zpow hm hmk
    have hb2 : (2 : ℚ) ^ (k + 53) ≤ 2 ^ (f64Exp x + 52) :=
      zpow_le_zpow_right₀ (by norm_num) (by omega)
    linarith

/-- A non-negative binary64 value rounds to itself. -/
theorem roundF64_eq_self {a : ℚ} (ha : IsF64 a) (h0 : 0 ≤ a) : roundF64 a = a :=
  le_antisymm (roundF64_le ha le_rfl h0) (le_roundF64 ha le_rfl h0)

/-- Integers of at most 53 bits are binary64 values. -/
theorem isF64_intCast {n : ℤ} (hn : |n| < 2 ^ 53) : IsF64 (n : ℚ) :=
  ⟨n, 0, hn, by norm_num, by simp⟩

theorem float64_eq_self {n : ℤ} (h0 : 0 ≤ n) (hn : n < 2 ^ 53) : float64 n = n := by
  unfold float64
  exact roundF64_eq_self (isF64_intCast (by rw [abs_of_nonneg h0]; exact hn))
    (by exact_mod_cast h0)

/-- Evaluation of `roundF64` at a positive `x` of known binade. -/
theorem roundF64_eq_of {x : ℚ} {e m : ℤ} (hx : 0 < x) (he : -1074 ≤ e)
    (h1 : (2 : ℚ) ^ (e + 52) ≤ x) (h2 : x < 2 ^ (e + 53))
    (hm : |x / 2 ^ e - m| < 1 / 2) : roundF64 x = m * 2 ^ e := by
  have hlog : Int.log 2 |x| = e + 52 := by
    rw [abs_of_pos hx]
    apply le_antisymm
    · have h := (Int.lt_zpow_iff_log_lt (b := 2) (by norm_num) hx).mp
        (by simpa using h2 : x < ((2 : ℕ) : ℚ) ^ (e + 53))
      omega
    · exact (Int.zpow_le_iff_le_log (b := 2) (by norm_num) hx).mp
        (by simpa using h1 : ((2 : ℕ) : ℚ) ^ (e + 52) ≤ x)
  have hexp : f64Exp x = e := by
    unfold f64Exp
    rw [hlog]
    have : e + 52 - 52 = e := by ring
    rw [this]
    exact max_eq_left he
  unfold roundF64
  rw [hexp, roundHalfEven_eq_of_abs_lt hm]

/-! ## Truncation and clamping -/

theorem tdiv_nonpos_of_nonpos {a b : ℤ} (ha : a ≤ 0) (hb : 0 ≤ b) : Int.tdiv a b ≤ 0 := by
  have h1 := Int.neg_tdiv a b
  have h2 := Int.tdiv_nonneg (by omega : 0 ≤ -a) hb
  omega

theorem tmod_nonpos_of_nonpos {a : ℤ} (b : ℤ) (ha : a ≤ 0) : Int.tmod a b ≤ 0 := by
  have h1 := Int.tmod_def a b
  have h2 := Int.tmod_def (-a) b
  have h3 := Int.neg_tdiv a b
  have h4 := Int.tmod_nonneg b (by omega : 0 ≤ -a)
  rw [h3] at h2
  linarith

theorem int_nonpos {x : ℚ} (h : x ≤ 0) : int x ≤ 0 := by
  unfold int
  split_ifs with h0
  · have hx : x = 0 := le_antisymm h h0
    rw [hx]
    simp
  · exact Int.ceil_le.mpr (by simpa using h)

theorem int_eq_of_mem {x : ℚ} {n : ℤ} (h0 : 0 ≤ n) (h1 : (n : ℚ) ≤ x) (h2 : x < n + 1) :
    int x = n := by
  unfold int
  have hx : (0 : ℚ) ≤ x := le_trans (by exact_mod_cast h0) h1
  rw [if_pos hx]
  exact Int.floor_eq_iff.mpr ⟨h1, h2⟩

theorem clamp_of_nonpos {t : ℤ} (h : t ≤ 0) : (if t < 0 then 0 else t) = 0 := by
  split_ifs <;> omega

theorem clamp_of_nonneg {t : ℤ} (h : 0 ≤ t) : (if t < 0 then 0 else t) = t := by
  split_ifs <;> omega

theorem float64_nonpos {n : ℤ} (h : n ≤ 0) : float64 n ≤ 0 :=
  roundF64_nonpos (by exact_mod_cast h)

/-- Integer part plus rounded fraction of a non-positive duration is non-positive. -/
theorem unit_nonpos {d u : ℤ} {c : ℚ} (hd : d ≤ 0) (hu : 0 ≤ u) (hc : 0 ≤ c) :
    roundF64 (float64 (Int.tdiv d u) + roundF64 (float64 (Int.tmod d u) / c)) ≤ 0 := by
  have h1 := float64_nonpos (tdiv_nonpos_of_nonpos hd hu)
  have h2 := float64_nonpos (tmod_nonpos_of_nonpos u hd)
  have h3 : roundF64 (float64 (Int.tmod d u) / c) ≤ 0 :=
    roundF64_nonpos (div_nonpos_of_nonpos_of_nonneg h2 hc)
  exact roundF64_nonpos (by linarith)

theorem hours_nonpos {d : ℤ} (hd : d ≤ 0) : Duration.Hours d ≤ 0 :=
  unit_nonpos hd (by decide) (by norm_num)

theorem minutes_nonpos {d : ℤ} (hd : d ≤ 0) : Duration.Minutes d ≤ 0 :=
  unit_nonpos hd (by decide) (by norm_num)

theorem seconds_nonpos {d : ℤ} (hd : d ≤ 0) : Duration.Seconds d ≤ 0 :=
  unit_nonpos hd (by decide) (by norm_num)

/-- Every duration that is zero or negative breaks down into four zeros. -/
theorem getDHMS_of_nonpos {D : ℤ} (hD : D ≤ 0) :
    getDaysHoursMinutesSeconds D = (0, 0, 0, 0) := by
  have hd : int (roundF64 (Duration.Hours D / 24)) ≤ 0 :=
    int_nonpos (roundF64_nonpos
      (div_nonpos_of_nonpos_of_nonneg (hours_nonpos hD) (by norm_num)))
  have hh := tmod_nonpos_of_nonpos 24 (int_nonpos (hours_nonpos hD))
  have hm := tmod_nonpos_of_nonpos 60 (int_nonpos (minutes_nonpos hD))
  have hs := tmod_nonpos_of_nonpos 60 (int_nonpos (seconds_nonpos hD))
  simp only [getDaysHoursMinutesSeconds, clamp_of_nonpos hd, clamp_of_nonpos hh,
    clamp_of_nonpos hm, clamp_of_nonpos hs]

/-! ## Whole seconds are broken down exactly -/

theorem isF64_add_frac12 {h : ℤ} (h0 : 0 ≤ h) (hh : h < 2 ^ 40) :
    IsF64 ((h : ℚ) + 4095 / 4096) := by
  refine ⟨4096 * h + 4095, -12, ?_, by norm_num, ?_⟩
  · rw [abs_of_nonneg (by omega)]
    omega
  · push_cast
    norm_num
    ring

theorem isF64_add_frac17 {q : ℤ} (h0 : 0 ≤ q) (hq : q < 2 ^ 35) :
    IsF64 ((q : ℚ) + 131071 / 131072) := by
  refine ⟨131072 * q + 131071, -17, ?_, by norm_num, ?_⟩
  · rw [abs_of_nonneg (by omega)]
    omega
  · push_cast
    norm_num
    ring

theorem isF64_frac12 : IsF64 (4095 / 4096) :=
  ⟨4095, -12, by norm_num, by norm_num, by norm_num⟩

/-- An integer part `h` plus a rounded fraction of at most `4095 / 4096` stays
within `h` and `h + 4095 / 4096`. -/
theorem add_frac_mem {h : ℤ} {f : ℚ} (h0 : 0 ≤ h) (hh : h < 2 ^ 40) (f0 : 0 ≤ f)
    (hf : f ≤ 4095 / 4096) :
    (h : ℚ) ≤ roundF64 (float64 h + roundF64 f) ∧
      roundF64 (float64 h + roundF64 f) ≤ (h : ℚ) + 4095 / 4096 := by
  have hfl : float64 h = h := float64_eq_self h0 (by omega)
  have hr0 : 0 ≤ roundF64 f := roundF64_nonneg f0
  have hr1 : roundF64 f ≤ 4095 / 4096 := roundF64_le isF64_frac12 hf f0
  have hq0 : (0 : ℚ) ≤ h := by exact_mod_cast h0
  rw [hfl]
  constructor
  · exact le_roundF64 (isF64_intCast (by rw [abs_of_nonneg h0]; omega)) (by linarith)
      (by linarith)
  · exact roundF64_le (isF64_add_frac12 h0 hh) (by linarith) (by linarith)

/-- The float computed by `Seconds`, `Minutes` and `Hours` for `s` whole
seconds, the unit being `U` seconds. -/
theorem unit_mem {U s : ℤ} (hU : 0 < U) (hU4 : U ≤ 4096) (hs : 0 ≤ s) (hs34 : s < 2 ^ 34) :
    ((s / U : ℤ) : ℚ) ≤ roundF64 (float64 (Int.tdiv (s * Second) (U * Second)) +
        roundF64 (float64 (Int.tmod (s * Second) (U * Second)) / ((U * Second : ℤ) : ℚ))) ∧
      roundF64 (float64 (Int.tdiv (s * Second) (U * Second)) +
        roundF64 (float64 (Int.tmod (s * Second) (U * Second)) / ((U * Second : ℤ) : ℚ)))
        ≤ ((s / U : ℤ) : ℚ) + 4095 / 4096 := by
  have hS : (0 : ℤ) < Second := by decide
  have hsS : 0 ≤ s * Second := Int.mul_nonneg hs hS.le
  have hUS : 0 ≤ U * Second := Int.mul_nonneg hU.le hS.le
  have hdiv : Int.tdiv (s * Second) (U * Second) = s / U := by
    rw [Int.tdiv_eq_ediv hsS hUS, Int.mul_ediv_mul_of_pos_left s U hS]
  have hmod : Int.tmod (s * Second) (U * Second) = (s % U) * Second := by
    rw [Int.tmod_eq_emod hsS hUS, Int.mul_comm s, Int.mul_comm U,
      Int.mul_emod_mul_of_pos s U hS, Int.mul_comm]
  have hr0 : 0 ≤ s % U := Int.emod_nonneg s hU.ne.symm
  have hr1 : s % U < U := Int.emod_lt_of_pos s hU
  have hq0 : 0 ≤ s / U := Int.ediv_nonneg hs hU.le
  have hq1 : s / U ≤ s := Int.ediv_le_self U hs
  have hSv : Second = 1000000000 := rfl
  have hfl : float64 ((s % U) * Second) = ((s % U) * Second : ℤ) :=
    float64_eq_self (Int.mul_nonneg hr0 hS.le) (by rw [hSv]; omega)
  rw [hdiv, hmod, hfl]
  have hUq : (0 : ℚ) < U := by exact_mod_cast hU
  have hSq : (0 : ℚ) < (Second : ℚ) := by exact_mod_cast hS
  have hfrac : (((s % U) * Second : ℤ) : ℚ) / ((U * Second : ℤ) : ℚ) = ((s % U : ℤ) : ℚ) / U := by
    push_cast
    field_simp
    ring
  rw [hfrac]
  have hrq0 : (0 : ℚ) ≤ ((s % U : ℤ) : ℚ) := by exact_mod_cast hr0
  have hrq1 : ((s % U : ℤ) : ℚ) ≤ U - 1 := by
    have : s % U ≤ U - 1 := by omega
    exact_mod_cast this
  have hUq4 : (U : ℚ) ≤ 4096 := by exact_mod_cast hU4
  have hf1 : ((s % U : ℤ) : ℚ) / U ≤ 4095 / 4096 := by
    rw [div_le_div_iff₀ hUq (by norm_num)]
    nlinarith
  exact add_frac_mem hq0 (by omega) (div_nonneg hrq0 hUq.le) hf1

theorem hours_whole {s : ℤ} (hs : 0 ≤ s) (hs34 : s < 2 ^ 34) :
    ((s / 3600 : ℤ) : ℚ) ≤ Duration.Hours (s * Second) ∧
      Duration.Hours (s * Second) ≤ ((s / 3600 : ℤ) : ℚ) + 4095 / 4096 := by
  have h := unit_mem (U := 3600) (by norm_num) (by norm_num) hs hs34
  have hU : (3600 : ℤ) * Second = Hour := by decide
  have hc : ((Hour : ℤ) : ℚ) = 3600000000000 := by norm_num [Hour, Minute, Second]
  rw [hU, hc] at h
  exact h

theorem minutes_whole {s : ℤ} (hs : 0 ≤ s) (hs34 : s < 2 ^ 34) :
    ((s / 60 : ℤ) : ℚ) ≤ Duration.Minutes (s * Second) ∧
      Duration.Minutes (s * Second) ≤ ((s / 60 : ℤ) : ℚ) + 4095 / 4096 := by
  have h := unit_mem (U := 60) (by norm_num) (by norm_num) hs hs34
  have hU : (60 : ℤ) * Second = Minute := by decide
  have hc : ((Minute : ℤ) : ℚ) = 60000000000 := by norm_num [Minute, Second]
  rw [hU, hc] at h
  exact h

theorem seconds_whole {s : ℤ} (hs : 0 ≤ s) (hs34 : s < 2 ^ 34) :
    (s : ℚ) ≤ Duration.Seconds (s * Second) ∧
      Duration.Seconds (s * Second) ≤ (s : ℚ) + 4095 / 4096 := by
  have h := unit_mem (U := 1) (by norm_num) (by norm_num) hs hs34
  have hU : (1 : ℤ) * Second = Second := by decide
  have hc : ((Second : ℤ) : ℚ) = 1000000000 := by norm_num [Second]
  rw [hU, hc, Int.ediv_one] at h
  exact h

theorem days_whole {s : ℤ} (hs : 0 ≤ s) (hs34 : s < 2 ^ 34) :
    int (roundF64 (Duration.Hours (s * Second) / 24)) = s / 86400 := by
  obtain ⟨h1, h2⟩ := hours_whole hs hs34
  have hq : s / 86400 = s / 3600 / 24 := by omega
  have hq0 : 0 ≤ s / 3600 / 24 := by omega
  have hq1 : s / 3600 / 24 < 2 ^ 35 := by omega
  have hh0 : (0 : ℚ) ≤ ((s / 3600 : ℤ) : ℚ) := by
    have : 0 ≤ s / 3600 := by omega
    exact_mod_cast this
  have hlo : ((s / 3600 / 24 : ℤ) : ℚ) ≤ Duration.Hours (s * Second) / 24 := by
    have h : 24 * (s / 3600 / 24) ≤ s / 3600 := by omega
    have hc : 24 * ((s / 3600 / 24 : ℤ) : ℚ) ≤ ((s / 3600 : ℤ) : ℚ) := by exact_mod_cast h
    rw [le_div_iff₀ (by norm_num)]
    linarith
  have hhi : Duration.Hours (s * Second) / 24
      ≤ ((s / 3600 / 24 : ℤ) : ℚ) + 131071 / 131072 := by
    have h : s / 3600 ≤ 24 * (s / 3600 / 24) + 23 := by omega
    have hc : ((s / 3600 : ℤ) : ℚ) ≤ 24 * ((s / 3600 / 24 : ℤ) : ℚ) + 23 := by
      exact_mod_cast h
    rw [div_le_iff₀ (by norm_num)]
    linarith
  have hx0 : (0 : ℚ) ≤ Duration.Hours (s * Second) / 24 :=
    div_nonneg (hh0.trans h1) (by norm_num)
  have r1 := le_roundF64 (isF64_intCast (by rw [abs_of_nonneg hq0]; omega)) hlo hx0
  have r2 := roundF64_le (isF64_add_frac17 hq0 hq1) hhi hx0
  rw [hq]
  exact int_eq_of_mem hq0 r1 (by linarith)

/-- A whole number `s` of seconds is broken down into `s / 86400` days,
`s / 3600 % 24` hours, `s / 60 % 60` minutes and `s % 60` seconds. -/
theorem getDHMS_whole {s : ℤ} (hs : 0 ≤ s) (hs34 : s < 2 ^ 34) :
    getDaysHoursMinutesSeconds (s * Second)
      = (s / 86400, s / 3600 % 24, s / 60 % 60, s % 60) := by
  have hd := days_whole hs hs34
  obtain ⟨a1, a2⟩ := hours_whole hs hs34
  obtain ⟨b1, b2⟩ := minutes_whole hs hs34
  obtain ⟨c1, c2⟩ := seconds_whole hs hs34
  have hH : int (Duration.Hours (s * Second)) = s / 3600 :=
    int_eq_of_mem (by omega) a1 (by linarith)
  have hM : int (Duration.Minutes (s * Second)) = s / 60 :=
    int_eq_of_mem (by omega) b1 (by linarith)
  have hS : int (Duration.Seconds (s * Second)) = s :=
    int_eq_of_mem hs c1 (by linarith)
  have t1 : Int.tmod (s / 3600) 24 = s / 3600 % 24 :=
    Int.tmod_eq_emod (by omega) (by norm_num)
  have t2 : Int.tmod (s / 60) 60 = s / 60 % 60 :=
    Int.tmod_eq_emod (by omega) (by norm_num)
  have t3 : Int.tmod s 60 = s % 60 := Int.tmod_eq_emod hs (by norm_num)
  simp only [getDaysHoursMinutesSeconds, hd, hH, hM, hS, t1, t2, t3,
    clamp_of_nonneg (t := s / 86400) (by omega),
    clamp_of_nonneg (t := s / 3600 % 24) (by omega),
    clamp_of_nonneg (t := s / 60 % 60) (by omega),
    clamp_of_nonneg (t := s % 60) (by omega)]

/-! ## Durations with a sub-second part -/

theorem roundHalfEven_le_of_lt_half {q : ℚ} {M : ℤ} (h : q < M + 1 / 2) :
    roundHalfEven q ≤ M := by
  have hfl : (⌊q⌋ : ℚ) ≤ q := Int.floor_le q
  have hf1 : ⌊q⌋ < M + 1 := Int.floor_lt.mpr (by push_cast; linarith)
  unfold roundHalfEven
  rcases (by omega : ⌊q⌋ = M ∨ ⌊q⌋ + 1 ≤ M) with hm | hm
  · have : q - ⌊q⌋ < 1 / 2 := by rw [hm]; linarith
    rw [if_pos this]
    omega
  · split_ifs <;> omega

theorem f64Exp_le {x : ℚ} {e : ℤ} (hx0 : 0 < x) (he : -1074 ≤ e) (hx : x < 2 ^ (e + 53)) :
    f64Exp x ≤ e := by
  unfold f64Exp
  rw [abs_of_pos hx0]
  have h := (Int.lt_zpow_iff_log_lt (b := 2) (by norm_num) hx0).mp
    (by simpa using hx : x < ((2 : ℕ) : ℚ) ^ (e + 53))
  exact max_le (by omega) he

theorem le_f64Exp {x : ℚ} {a : ℤ} (hx0 : 0 < x) (ha : (2 : ℚ) ^ a ≤ x) :
    a - 52 ≤ f64Exp x := by
  unfold f64Exp
  rw [abs_of_pos hx0]
  have h := (Int.zpow_le_iff_le_log (b := 2) (by norm_num) hx0).mp
    (by simpa using ha : ((2 : ℕ) : ℚ) ^ a ≤ x)
  exact le_max_of_le_left (by omega)

/-- Below an integer `H + 1` by more than half a unit of its binade, a positive
`x` rounds to at most one unit below `H + 1`. -/
theorem roundF64_le_sub_ulp {x : ℚ} {H e : ℤ} (hx0 : 0 < x) (he1 : -1074 ≤ e) (he2 : e ≤ 0)
    (hx : x < 2 ^ (e + 53)) (hlt : x < H + 1 - 2 ^ (e - 1)) :
    roundF64 x ≤ H + 1 - 2 ^ f64Exp x := by
  have hee : f64Exp x ≤ e := f64Exp_le hx0 he1 hx
  have hp := two_zpow_pos (f64Exp x)
  have hu : (2 : ℚ) ^ (f64Exp x - 1) ≤ 2 ^ (e - 1) :=
    zpow_le_zpow_right₀ (by norm_num) (by omega)
  have hhalf : (2 : ℚ) ^ (f64Exp x - 1) = 2 ^ f64Exp x / 2 := by
    rw [zpow_sub₀ (by norm_num : (2 : ℚ) ≠ 0)]
    norm_num
  have hN : ((H + 1 : ℤ) : ℚ) / 2 ^ f64Exp x
      = (((H + 1) * 2 ^ (0 - f64Exp x).toNat : ℤ) : ℚ) :=
    isF64_div_int (a := ((H + 1 : ℤ) : ℚ)) (m := H + 1) (k := 0) (by simp) (by omega)
  have hq : x / 2 ^ f64Exp x
      < (((H + 1) * 2 ^ (0 - f64Exp x).toNat - 1 : ℤ) : ℚ) + 1 / 2 := by
    have h1 : x < ((H + 1 : ℤ) : ℚ) - 2 ^ f64Exp x / 2 := by
      push_cast
      linarith
    have h2 : x / 2 ^ f64Exp x < ((H + 1 : ℤ) : ℚ) / 2 ^ f64Exp x - 1 / 2 := by
      rw [div_lt_iff₀ hp]
      have : (((H + 1 : ℤ) : ℚ) / 2 ^ f64Exp x - 1 / 2) * 2 ^ f64Exp x
          = ((H + 1 : ℤ) : ℚ) - 2 ^ f64Exp x / 2 := by
        field_simp
        ring
      rw [this]
      exact h1
    rw [hN] at h2
    push_cast at h2 ⊢
    linarith
  have hr := roundHalfEven_le_of_lt_half hq
  have hrq : (roundHalfEven (x / 2 ^ f64Exp x) : ℚ)
      ≤ (((H + 1) * 2 ^ (0 - f64Exp x).toNat - 1 : ℤ) : ℚ) := by
    exact_mod_cast hr
  unfold roundF64
  calc (roundHalfEven (x / 2 ^ f64Exp x) : ℚ) * 2 ^ f64Exp x
      ≤ (((H + 1) * 2 ^ (0 - f64Exp x).toNat - 1 : ℤ) : ℚ) * 2 ^ f64Exp x :=
        mul_le_mul_of_nonneg_right hrq hp.le
    _ = (((H + 1 : ℤ) : ℚ) / 2 ^ f64Exp x - 1) * 2 ^ f64Exp x := by
        rw [hN]
        push_cast
        ring
    _ = H + 1 - 2 ^ f64Exp x := by
        push_cast
        field_simp

/-- The float computed by `Seconds`, `Minutes` and `Hours` for an integer part
`h` and a remainder `r` over the unit `U`: when the remainder leaves more than
half a unit in the last place below the next integer, the float stays below
that integer, by at least the unit of its own binade. -/
theorem add_frac_floor {h r e : ℤ} {c b : ℚ} (h0 : 0 ≤ h) (hh53 : h < 2 ^ 53)
    (r0 : 0 ≤ r) (hr53 : r < 2 ^ 53) (hc : 0 < c)
    (he1 : -1074 ≤ e) (he2 : e ≤ 0) (hh : (h : ℚ) + 1 ≤ 2 ^ (e + 53))
    (hb : IsF64 b) (hb1 : b < 1 - 2 ^ (e - 1)) (hrb : (r : ℚ) ≤ b * c) :
    (h : ℚ) ≤ roundF64 (float64 h + roundF64 (float64 r / c)) ∧
    roundF64 (float64 h + roundF64 (float64 r / c)) < h + 1 ∧
    ∀ a : ℤ, (2 : ℚ) ^ a ≤ h →
      roundF64 (float64 h + roundF64 (float64 r / c)) ≤ h + 1 - 2 ^ (a - 52) := by
  rw [float64_eq_self h0 hh53, float64_eq_self r0 hr53]
  have hq0 : (0 : ℚ) ≤ h := by exact_mod_cast h0
  have hr0 : (0 : ℚ) ≤ r := by exact_mod_cast r0
  have hρ0 : 0 ≤ (r : ℚ) / c := div_nonneg hr0 hc.le
  have hρ1 : (r : ℚ) / c ≤ b := by
    rw [div_le_iff₀ hc]
    exact hrb
  have hf0 : 0 ≤ roundF64 ((r : ℚ) / c) := roundF64_nonneg hρ0
  have hf1 : roundF64 ((r : ℚ) / c) ≤ b := roundF64_le hb hρ1 hρ0
  have hpe := two_zpow_pos (e - 1)
  have hx0 : 0 ≤ (h : ℚ) + roundF64 ((r : ℚ) / c) := by linarith
  have hlow : (h : ℚ) ≤ roundF64 ((h : ℚ) + roundF64 ((r : ℚ) / c)) :=
    le_roundF64 (isF64_intCast (by rw [abs_of_nonneg h0]; exact hh53)) (by linarith) hx0
  rcases hx0.eq_or_lt with hz | hpos
  · have hh0 : (h : ℚ) = 0 := by linarith
    rw [← hz, roundF64_zero, hh0]
    refine ⟨le_rfl, by norm_num, ?_⟩
    intro a ha
    exact absurd ha (not_le.mpr (two_zpow_pos a))
  · have hA := roundF64_le_sub_ulp (H := h) hpos he1 he2 (by linarith) (by linarith)
    have hpu := two_zpow_pos (f64Exp ((h : ℚ) + roundF64 ((r : ℚ) / c)))
    refine ⟨hlow, by linarith, ?_⟩
    intro a ha
    have hae := le_f64Exp hpos (by linarith : (2 : ℚ) ^ a ≤ (h : ℚ) + roundF64 ((r : ℚ) / c))
    have hmono : (2 : ℚ) ^ (a - 52) ≤ 2 ^ f64Exp ((h : ℚ) + roundF64 ((r : ℚ) / c)) :=
      zpow_le_zpow_right₀ (by norm_num) hae
    linarith

/-- The day count obtained from the float of `Hours`. -/
theorem days_of_hours {h : ℤ} {V : ℚ} (h0 : 0 ≤ h) (hh : h < 2 ^ 39) (hV1 : (h : ℚ) ≤ V)
    (hV2 : V < h + 1) (hV3 : ∀ a : ℤ, (2 : ℚ) ^ a ≤ h → V ≤ h + 1 - 2 ^ (a - 52)) :
    int (roundF64 (V / 24)) = h / 24 := by
  have hq0 : 0 ≤ h / 24 := by omega
  have hq1 : h / 24 < 2 ^ 35 := by omega
  have hhq : (0 : ℚ) ≤ h := by exact_mod_cast h0
  have hy0 : 0 ≤ V / 24 := div_nonneg (by linarith) (by norm_num)
  have hlo : ((h / 24 : ℤ) : ℚ) ≤ V / 24 := by
    have h1 : 24 * (h / 24) ≤ h := by omega
    have h2 : 24 * ((h / 24 : ℤ) : ℚ) ≤ (h : ℚ) := by exact_mod_cast h1
    rw [le_div_iff₀ (by norm_num)]
    linarith
  have r1 := le_roundF64 (isF64_intCast (by rw [abs_of_nonneg hq0]; omega)) hlo hy0
  have hup : roundF64 (V / 24) < ((h / 24 : ℤ) : ℚ) + 1 := by
    rcases (by omega : h % 24 ≤ 22 ∨ h = 24 * (h / 24) + 23) with hr | hr
    · have h1 : h + 1 ≤ 24 * (h / 24) + 23 := by omega
      have h2 : (h : ℚ) + 1 ≤ 24 * ((h / 24 : ℤ) : ℚ) + 23 := by exact_mod_cast h1
      have h3 : V / 24 ≤ ((h / 24 : ℤ) : ℚ) + 131071 / 131072 := by
        rw [div_le_iff₀ (by norm_num)]
        linarith
      have := roundF64_le (isF64_add_frac17 hq0 hq1) h3 hy0
      linarith
    · have hrq : (h : ℚ) + 1 = 24 * (((h / 24 : ℤ) : ℚ) + 1) := by
        have : h + 1 = 24 * (h / 24 + 1) := by omega
        exact_mod_cast this
      have hn0 : h.toNat ≠ 0 := by omega
      have hp1 := Nat.pow_log_le_self 2 hn0
      have hp2 := Nat.lt_pow_succ_log_self (by norm_num : 1 < 2) h.toNat
      have ha40 : Nat.log 2 h.toNat < 40 := by
        by_contra hc
        have := Nat.pow_le_pow_right (by norm_num : 0 < 2) (not_lt.mp hc)
        omega
      have hcast : ((h.toNat : ℤ) : ℚ) = h := by
        rw [Int.toNat_of_nonneg h0]
      have hP1 : (2 : ℚ) ^ (Nat.log 2 h.toNat : ℤ) ≤ h := by
        rw [zpow_natCast, ← hcast]
        exact_mod_cast hp1
      have hP2 : (h : ℚ) + 1 ≤ 2 * 2 ^ (Nat.log 2 h.toNat : ℤ) := by
        rw [zpow_natCast, ← hcast]
        have : h.toNat + 1 ≤ 2 * 2 ^ Nat.log 2 h.toNat := by
          rw [Nat.pow_succ] at hp2
          omega
        exact_mod_cast this
      have hPpos := two_zpow_pos (Nat.log 2 h.toNat : ℤ)
      have hV := hV3 _ hP1
      have e1 : (2 : ℚ) ^ ((Nat.log 2 h.toNat : ℤ) - 52)
          = 2 ^ (Nat.log 2 h.toNat : ℤ) / 4503599627370496 := by
        rw [zpow_sub₀ (by norm_num : (2 : ℚ) ≠ 0)]
        norm_num
      have e2 : (2 : ℚ) ^ ((Nat.log 2 h.toNat : ℤ) - 56 + 53)
          = 2 ^ (Nat.log 2 h.toNat : ℤ) / 8 := by
        have : (Nat.log 2 h.toNat : ℤ) - 56 + 53 = (Nat.log 2 h.toNat : ℤ) - 3 := by ring
        rw [this, zpow_sub₀ (by norm_num : (2 : ℚ) ≠ 0)]
        norm_num
      have e3 : (2 : ℚ) ^ ((Nat.log 2 h.toNat : ℤ) - 56 - 1)
          = 2 ^ (Nat.log 2 h.toNat : ℤ) / 144115188075855872 := by
        have : (Nat.log 2 h.toNat : ℤ) - 56 - 1 = (Nat.log 2 h.toNat : ℤ) - 57 := by ring
        rw [this, zpow_sub₀ (by norm_num : (2 : ℚ) ≠ 0)]
        norm_num
      rw [e1] at hV
      have hypos : 0 < V / 24 := by
        apply div_pos _ (by norm_num)
        linarith
      have hA := roundF64_le_sub_ulp (x := V / 24) (H := h / 24)
        (e := (Nat.log 2 h.toNat : ℤ) - 56) hypos (by omega) (by omega)
        (by rw [e2, div_lt_iff₀ (by norm_num)]; linarith)
        (by rw [e3, div_lt_iff₀ (by norm_num)]; linarith)
      have := two_zpow_pos (f64Exp (V / 24))
      linarith
  exact int_eq_of_mem hq0 r1 hup

theorem unit_floor {D U e : ℤ} {c b : ℚ} (hD : 0 ≤ D) (hU : 0 < U) (hU53 : U < 2 ^ 53)
    (hc : c = (U : ℚ)) (hq53 : D / U < 2 ^ 53) (he1 : -1074 ≤ e) (he2 : e ≤ 0)
    (hh : ((D / U : ℤ) : ℚ) + 1 ≤ 2 ^ (e + 53)) (hb : IsF64 b) (hb1 : b < 1 - 2 ^ (e - 1))
    (hrb : ((D % U : ℤ) : ℚ) ≤ b * c) :
    ((D / U : ℤ) : ℚ) ≤ roundF64 (float64 (Int.tdiv D U) + roundF64 (float64 (Int.tmod D U) / c)) ∧
    roundF64 (float64 (Int.tdiv D U) + roundF64 (float64 (Int.tmod D U) / c))
      < ((D / U : ℤ) : ℚ) + 1 ∧
    ∀ a : ℤ, (2 : ℚ) ^ a ≤ ((D / U : ℤ) : ℚ) →
      roundF64 (float64 (Int.tdiv D U) + roundF64 (float64 (Int.tmod D U) / c))
        ≤ ((D / U : ℤ) : ℚ) + 1 - 2 ^ (a - 52) := by
  rw [Int.tdiv_eq_ediv hD hU.le, Int.tmod_eq_emod hD hU.le]
  exact add_frac_floor (Int.ediv_nonneg hD hU.le) hq53 (Int.emod_nonneg D hU.ne.symm)
    (lt_trans (Int.emod_lt_of_pos D hU) hU53) (by rw [hc]; exact_mod_cast hU) he1 he2 hh hb
    hb1 hrb

theorem hours_floor {D : ℤ} (hD : 0 < D) (hmax : D < 2 ^ 63)
    (hreg : D < 14749199999999999 ∨ D % 1000000000 ≤ 999999000) :
    ((D / 3600000000000 : ℤ) : ℚ) ≤ Duration.Hours D ∧
    Duration.Hours D < ((D / 3600000000000 : ℤ) : ℚ) + 1 ∧
    ∀ a : ℤ, (2 : ℚ) ^ a ≤ ((D / 3600000000000 : ℤ) : ℚ) →
      Duration.Hours D ≤ ((D / 3600000000000 : ℤ) : ℚ) + 1 - 2 ^ (a - 52) := by
  have hU : Hour = 3600000000000 := by decide
  unfold Duration.Hours
  simp only [hU]
  by_cases hA : D < 14745600000000000
  · clear hreg
    have q1 : D / 3600000000000 + 1 ≤ 4096 := by omega
    have q2 : D % 3600000000000 ≤ 3599999999999 := by omega
    have q3 : ((D / 3600000000000 : ℤ) : ℚ) + 1 ≤ 4096 := by exact_mod_cast q1
    have q4 : ((D % 3600000000000 : ℤ) : ℚ) ≤ 3599999999999 := by exact_mod_cast q2
    exact unit_floor (U := 3600000000000) (e := -41) (c := 3600000000000) (b := 9007199254738943 / 9007199254740992) hD.le
      (by norm_num) (by norm_num) (by norm_num) (by omega) (by norm_num) (by norm_num)
      (le_trans q3 (by norm_num)) ⟨9007199254738943, -53, by norm_num, by norm_num, by norm_num⟩
      (by norm_num) (le_trans q4 (by norm_num))
  by_cases hB : D < 14749199999999999
  · clear hreg
    have q1 : D / 3600000000000 + 1 ≤ 8192 := by omega
    have q2 : D % 3600000000000 ≤ 3599999999998 := by omega
    have q3 : ((D / 3600000000000 : ℤ) : ℚ) + 1 ≤ 8192 := by exact_mod_cast q1
    have q4 : ((D % 3600000000000 : ℤ) : ℚ) ≤ 3599999999998 := by exact_mod_cast q2
    exact unit_floor (U := 3600000000000) (e := -40) (c := 3600000000000) (b := 9007199254736895 / 9007199254740992) hD.le
      (by norm_num) (by norm_num) (by norm_num) (by omega) (by norm_num) (by norm_num)
      (le_trans q3 (by norm_num)) ⟨9007199254736895, -53, by norm_num, by norm_num, by norm_num⟩
      (by norm_num) (le_trans q4 (by norm_num))
  have hC : D % 1000000000 ≤ 999999000 := by omega
  have q1 : D / 3600000000000 + 1 ≤ 4194304 := by omega
  have q2 : D % 3600000000000 ≤ 3599999999000 := by omega
  have q3 : ((D / 3600000000000 : ℤ) : ℚ) + 1 ≤ 4194304 := by exact_mod_cast q1
  have q4 : ((D % 3600000000000 : ℤ) : ℚ) ≤ 3599999999000 := by exact_mod_cast q2
  exact unit_floor (U := 3600000000000) (e := -31) (c := 3600000000000) (b := 9007199252643839 / 9007199254740992) hD.le
    (by norm_num) (by norm_num) (by norm_num) (by omega) (by norm_num) (by norm_num)
    (le_trans q3 (by norm_num)) ⟨9007199252643839, -53, by norm_num, by norm_num, by norm_num⟩
    (by norm_num) (le_trans q4 (by norm_num))

theorem minutes_floor {D : ℤ} (hD : 0 < D) (hmax : D < 2 ^ 63)
    (hreg : D < 14749199999999999 ∨ D % 1000000000 ≤ 999999000) :
    ((D / 60000000000 : ℤ) : ℚ) ≤ Duration.Minutes D ∧
    Duration.Minutes D < ((D / 60000000000 : ℤ) : ℚ) + 1 ∧
    ∀ a : ℤ, (2 : ℚ) ^ a ≤ ((D / 60000000000 : ℤ) : ℚ) →
      Duration.Minutes D ≤ ((D / 60000000000 : ℤ) : ℚ) + 1 - 2 ^ (a - 52) := by
  have hU : Minute = 60000000000 := by decide
  unfold Duration.Minutes
  simp only [hU]
  by_cases hB : D < 14749199999999999
  · clear hreg
    have q1 : D / 60000000000 + 1 ≤ 262144 := by omega
    have q2 : D % 60000000000 ≤ 59999999999 := by omega
    have q3 : ((D / 60000000000 : ℤ) : ℚ) + 1 ≤ 262144 := by exact_mod_cast q1
    have q4 : ((D % 60000000000 : ℤ) : ℚ) ≤ 59999999999 := by exact_mod_cast q2
    exact unit_floor (U := 60000000000) (e := -35) (c := 60000000000) (b := 9007199254609919 / 9007199254740992) hD.le
      (by norm_num) (by norm_num) (by norm_num) (by omega) (by norm_num) (by norm_num)
      (le_trans q3 (by norm_num)) ⟨9007199254609919, -53, by norm_num, by norm_num, by norm_num⟩
      (by norm_num) (le_trans q4 (by norm_num))
  have hC : D % 1000000000 ≤ 999999000 := by omega
  have q1 : D / 60000000000 + 1 ≤ 268435456 := by omega
  have q2 : D % 60000000000 ≤ 59999999000 := by omega
  have q3 : ((D / 60000000000 : ℤ) : ℚ) + 1 ≤ 268435456 := by exact_mod_cast q1
  have q4 : ((D % 60000000000 : ℤ) : ℚ) ≤ 59999999000 := by exact_mod_cast q2
  exact unit_floor (U := 60000000000) (e := -25) (c := 60000000000) (b := 9007199120523263 / 9007199254740992) hD.le
    (by norm_num) (by norm_num) (by norm_num) (by omega) (by norm_num) (by norm_num)
    (le_trans q3 (by norm_num)) ⟨9007199120523263, -53, by norm_num, by norm_num, by norm_num⟩
    (by norm_num) (le_trans q4 (by norm_num))

theorem seconds_floor {D : ℤ} (hD : 0 < D) (hmax : D < 2 ^ 63)
    (hreg : D < 14749199999999999 ∨ D % 1000000000 ≤ 999999000) :
    ((D / 1000000000 : ℤ) : ℚ) ≤ Duration.Seconds D ∧
    Duration.Seconds D < ((D / 1000000000 : ℤ) : ℚ) + 1 ∧
    ∀ a : ℤ, (2 : ℚ) ^ a ≤ ((D / 1000000000 : ℤ) : ℚ) →
      Duration.Seconds D ≤ ((D / 1000000000 : ℤ) : ℚ) + 1 - 2 ^ (a - 52) := by
  have hU : Second = 1000000000 := by decide
  unfold Duration.Seconds
  simp only [hU]
  by_cases hB : D < 14749199999999999
  · clear hreg
    have q1 : D / 1000000000 + 1 ≤ 16777216 := by omega
    have q2 : D % 1000000000 ≤ 999999999 := by omega
    have q3 : ((D / 1000000000 : ℤ) : ℚ) + 1 ≤ 16777216 := by exact_mod_cast q1
    have q4 : ((D % 1000000000 : ℤ) : ℚ) ≤ 999999999 := by exact_mod_cast q2
    exact unit_floor (U := 1000000000) (e := -29) (c := 1000000000) (b := 9007199246352383 / 9007199254740992) hD.le
      (by norm_num) (by norm_num) (by norm_num) (by omega) (by norm_num) (by norm_num)
      (le_trans q3 (by norm_num)) ⟨9007199246352383, -53, by norm_num, by norm_num, by norm_num⟩
      (by norm_num) (le_trans q4 (by norm_num))
  have hC : D % 1000000000 ≤ 999999000 := by omega
  have q1 : D / 1000000000 + 1 ≤ 17179869184 := by omega
  have q2 : D % 1000000000 ≤ 999999000 := by omega
  have q3 : ((D / 1000000000 : ℤ) : ℚ) + 1 ≤ 17179869184 := by exact_mod_cast q1
  have q4 : ((D % 1000000000 : ℤ) : ℚ) ≤ 999999000 := by exact_mod_cast q2
  exact unit_floor (U := 1000000000) (e := -19) (c := 1000000000) (b := 9007190664806399 / 9007199254740992) hD.le
    (by norm_num) (by norm_num) (by norm_num) (by omega) (by norm_num) (by norm_num)
    (le_trans q3 (by norm_num)) ⟨9007190664806399, -53, by norm_num, by norm_num, by norm_num⟩
    (by norm_num) (le_trans q4 (by norm_num))

/-- A positive duration below `14749199999999999` ns, or one whose sub-second
part is at most `999999000` ns, is broken down like its whole seconds. -/
theorem getDHMS_floor {D : ℤ} (hD : 0 < D) (hmax : D < 2 ^ 63)
    (hreg : D < 14749199999999999 ∨ D % 1000000000 ≤ 999999000) :
    getDaysHoursMinutesSeconds D
      = (D / 3600000000000 / 24, D / 3600000000000 % 24, D / 60000000000 % 60,
          D / 1000000000 % 60) := by
  obtain ⟨a1, a2, a3⟩ := hours_floor hD hmax hreg
  obtain ⟨b1, b2, _⟩ := minutes_floor hD hmax hreg
  obtain ⟨c1, c2, _⟩ := seconds_floor hD hmax hreg
  have hd := days_of_hours (h := D / 3600000000000) (by omega) (by omega) a1 a2 a3
  have hH : int (Duration.Hours D) = D / 3600000000000 := int_eq_of_mem (by omega) a1 a2
  have hM : int (Duration.Minutes D) = D / 60000000000 := int_eq_of_mem (by omega) b1 b2
  have hS : int (Duration.Seconds D) = D / 1000000000 := int_eq_of_mem (by omega) c1 c2
  have t1 : Int.tmod (D / 3600000000000) 24 = D / 3600000000000 % 24 :=
    Int.tmod_eq_emod (by omega) (by norm_num)
  have t2 : Int.tmod (D / 60000000000) 60 = D / 60000000000 % 60 :=
    Int.tmod_eq_emod (by omega) (by norm_num)
  have t3 : Int.tmod (D / 1000000000) 60 = D / 1000000000 % 60 :=
    Int.tmod_eq_emod (by omega) (by norm_num)
  simp only [getDaysHoursMinutesSeconds, hd, hH, hM, hS, t1, t2, t3,
    clamp_of_nonneg (t := D / 3600000000000 / 24) (by omega),
    clamp_of_nonneg (t := D / 3600000000000 % 24) (by omega),
    clamp_of_nonneg (t := D / 60000000000 % 60) (by omega),
    clamp_of_nonneg (t := D / 1000000000 % 60) (by omega)]

theorem getDHMS_floor_sum {D : ℤ} (hD : 0 < D) (hmax : D < 2 ^ 63)
    (hreg : D < 14749199999999999 ∨ D % Second ≤ 999999000) :
    (getDaysHoursMinutesSeconds D).1 * 86400 + (getDaysHoursMinutesSeconds D).2.1 * 3600
      + (getDaysHoursMinutesSeconds D).2.2.1 * 60 + (getDaysHoursMinutesSeconds D).2.2.2
      = D / Second := by
  have hS : Second = 1000000000 := rfl
  rw [hS] at hreg ⊢
  rw [getDHMS_floor hD hmax hreg]
  show D / 3600000000000 / 24 * 86400 + D / 3600000000000 % 24 * 3600
    + D / 60000000000 % 60 * 60 + D / 1000000000 % 60 = D / 1000000000
  omega

/-! ## The tick loop -/

theorem wrap64_eq_self {n : ℤ} (h1 : -2 ^ 63 ≤ n) (h2 : n < 2 ^ 63) : wrap64 n = n := by
  unfold wrap64
  omega

theorem tick_expired (gl : String → Int → Int) (d : ℤ) :
    (tick gl d).expired = decide (d ≤ 0) := rfl

theorem tick_duration (gl : String → Int → Int) (d : ℤ) :
    (tick gl d).duration = wrap64 (d - Second) := rfl

theorem tick_items (gl : String → Int → Int) (d : ℤ) :
    (tick gl d).items = mkItems (getDaysHoursMinutesSeconds (wrap64 (d - Second))) := rfl

theorem tick_drawn (gl : String → Int → Int) (d : ℤ) :
    (tick gl d).img.drawn = (placeItems gl (tick gl d).items textOriginOffset []).2 := rfl

theorem tick_palette (gl : String → Int → Int) (d : ℤ) :
    (tick gl d).img.Palette = [Color.White,
      if d ≤ 0 then Color.RGBA 210 210 210 255 else Color.RGBA 0 0 0 255] := by
  by_cases h : d ≤ 0 <;> simp [tick, h]

theorem ticks_succ_of_nonpos (gl : String → Int → Int) (n : ℕ) {d : ℤ} (hd : d ≤ 0) :
    ticks gl (n + 1) d = [tick gl d] := by
  have h : (tick gl d).expired = true := by rw [tick_expired]; exact decide_eq_true hd
  simp only [ticks, h, if_true]

theorem ticks_succ_of_pos (gl : String → Int → Int) (n : ℕ) {d : ℤ} (hd : 0 < d)
    (hmax : d < 2 ^ 63) : ticks gl (n + 1) d = tick gl d :: ticks gl n (d - Second) := by
  have h : (tick gl d).expired = false := by
    rw [tick_expired]
    exact decide_eq_false (by omega)
  have hS : Second = 1000000000 := rfl
  have hw : (tick gl d).duration = d - Second := by
    rw [tick_duration]
    exact wrap64_eq_self (by rw [hS]; omega) (by rw [hS]; omega)
  simp only [ticks, h, hw]
  simp

theorem tickLoop_eq (gl : String → Int → Int) (n : ℕ) (d : ℤ) (anim : GIF) (log : List Tick) :
    tickLoop gl n d anim log
      = (GIF.mk (anim.Image ++ (ticks gl n d).map Tick.img)
          (anim.Delay ++ (ticks gl n d).map (fun _ => 100)), log ++ ticks gl n d) := by
  induction n generalizing d anim log with
  | zero => simp [tickLoop, ticks]
  | succ n ih =>
    by_cases h : (tick gl d).expired = true
    · simp [tickLoop, ticks, h]
    · simp [tickLoop, ticks, h, ih]

theorem assemble_eq (gl : String → Int → Int) (d : ℤ) :
    assemble gl d = (GIF.mk ((ticks gl gifDuration d).map Tick.img)
      ((ticks gl gifDuration d).map (fun _ => 100)), ticks gl gifDuration d) := by
  unfold assemble
  rw [tickLoop_eq]
  simp

theorem ticks_length_le (gl : String → Int → Int) (n : ℕ) (d : ℤ) :
    (ticks gl n d).length ≤ n := by
  induction n generalizing d with
  | zero => simp [ticks]
  | succ n ih =>
    by_cases h : (tick gl d).expired = true
    · simp [ticks, h]
    · have := ih (tick gl d).duration
      simp [ticks, h]
      omega

/-- The iteration with index `k` starts from the duration less `k` seconds. -/
theorem ticks_getElem (gl : String → Int → Int) (n : ℕ) (d : ℤ) (hmax : d < 2 ^ 63)
    (k : ℕ) (hk : k < (ticks gl n d).length) :
    (ticks gl n d)[k]? = some (tick gl (d - k * Second)) := by
  induction n generalizing d k with
  | zero => simp [ticks] at hk
  | succ n ih =>
    have hS : Second = 1000000000 := rfl
    rcases le_or_lt d 0 with hd | hd
    · rw [ticks_succ_of_nonpos gl n hd] at hk ⊢
      have hk0 : k = 0 := by simpa using hk
      subst hk0
      simp
    · rw [ticks_succ_of_pos gl n hd hmax] at hk ⊢
      cases k with
      | zero => simp
      | succ k =>
        have hk2 : k < (ticks gl n (d - Second)).length := by simpa using hk
        have := ih (d - Second) (by rw [hS]; omega) k hk2
        rw [List.getElem?_cons_succ, this]
        congr 2
        push_cast
        ring

/-- Every iteration but the last starts from a positive duration. -/
theorem ticks_pos_of_not_last (gl : String → Int → Int) (n : ℕ) (d : ℤ) (hmax : d < 2 ^ 63)
    (k : ℕ) (hk : k + 1 < (ticks gl n d).length) : 0 < d - k * Second := by
  induction n generalizing d k with
  | zero => simp [ticks] at hk
  | succ n ih =>
    have hS : Second = 1000000000 := rfl
    rcases le_or_lt d 0 with hd | hd
    · rw [ticks_succ_of_nonpos gl n hd] at hk
      simp at hk
    · rw [ticks_succ_of_pos gl n hd hmax] at hk
      cases k with
      | zero => simpa using hd
      | succ k =>
        have hk2 : k + 1 < (ticks gl n (d - Second)).length := by simpa using hk
        have := ih (d - Second) (by rw [hS]; omega) k hk2
        push_cast
        linarith

/-- The iterations run for a whole number `s` of seconds. -/
theorem ticks_whole (gl : String → Int → Int) (n s : ℕ) (hmax : (s : ℤ) * Second < 2 ^ 63) :
    ticks gl n ((s : ℤ) * Second)
      = (List.range (min n (s + 1))).map
          (fun (k : ℕ) => tick gl (((s : ℤ) - (k : ℤ)) * Second)) := by
  induction n generalizing s with
  | zero => simp [ticks]
  | succ n ih =>
    have hS : Second = 1000000000 := rfl
    cases s with
    | zero =>
      rw [ticks_succ_of_nonpos gl n (by simp)]
      have hmin : min (n + 1) (0 + 1) = 1 := by omega
      have hr : List.range 1 = [0] := rfl
      rw [hmin, hr]
      simp
    | succ s =>
      have hpos : (0 : ℤ) < ((s + 1 : ℕ) : ℤ) * Second := by
        rw [hS]
        push_cast
        omega
      have hd : ((s + 1 : ℕ) : ℤ) * Second - Second = (s : ℤ) * Second := by
        push_cast
        ring
      have hmax2 : (s : ℤ) * Second < 2 ^ 63 := by
        rw [hS] at hmax ⊢
        push_cast at hmax
        omega
      rw [ticks_succ_of_pos gl n hpos hmax, hd, ih s hmax2]
      have hmin : min (n + 1) (s + 1 + 1) = min n (s + 1) + 1 := by omega
      rw [hmin, List.range_succ_eq_map, List.map_cons, List.map_map]
      refine congrArg₂ List.cons ?_ ?_
      · simp
      · apply List.map_congr_left
        intro k _
        simp only [Function.comp]
        congr 1
        push_cast
        ring

theorem assemble_log (gl : String → Int → Int) (d : ℤ) :
    (assemble gl d).2 = ticks gl gifDuration d := by
  rw [assemble_eq]

theorem assemble_image (gl : String → Int → Int) (d : ℤ) :
    (assemble gl d).1.Image = (ticks gl gifDuration d).map Tick.img := by
  rw [assemble_eq]

theorem assemble_delay (gl : String → Int → Int) (d : ℤ) :
    (assemble gl d).1.Delay = (ticks gl gifDuration d).map (fun _ => 100) := by
  rw [assemble_eq]

theorem lt_length_of_getElem {α : Type} {l : List α} {k : ℕ} {a : α}
    (h : l[k]? = some a) : k < l.length := by
  by_contra hc
  rw [List.getElem?_eq_none (by omega)] at h
  simp at h

/-- The iteration with index `k`: it starts from `D` less `k` seconds and
breaks down `D` less `k + 1` seconds. -/
theorem tick_at (gl : String → Int → Int) (n : ℕ) (D : ℤ) (k : ℕ) (t : Tick)
    (h1 : -2 ^ 63 + Second ≤ D) (h2 : D < 2 ^ 63) (ht : (ticks gl n D)[k]? = some t) :
    t = tick gl (D - k * Second) ∧
      t.items = mkItems (getDaysHoursMinutesSeconds (D - (k + 1) * Second)) := by
  have hk := lt_length_of_getElem ht
  have hS : Second = 1000000000 := rfl
  have hget := ticks_getElem gl n D h2 k hk
  rw [ht] at hget
  have ht2 : t = tick gl (D - k * Second) := Option.some.inj hget
  refine ⟨ht2, ?_⟩
  have hlow : -2 ^ 63 ≤ D - k * Second - Second := by
    cases k with
    | zero =>
      rw [hS] at h1 ⊢
      push_cast
      omega
    | succ j =>
      have := ticks_pos_of_not_last gl n D h2 j hk
      rw [hS] at this ⊢
      push_cast
      omega
  have hhigh : D - k * Second - Second < 2 ^ 63 := by
    rw [hS]
    omega
  rw [ht2, tick_items, wrap64_eq_self hlow hhigh]
  congr 2
  ring

theorem tick_items_of_nonpos (gl : String → Int → Int) {d : ℤ} (hd : d ≤ 0)
    (hlow : -2 ^ 63 + Second ≤ d) : (tick gl d).items = mkItems (0, 0, 0, 0) := by
  have hS : Second = 1000000000 := rfl
  have hw : wrap64 (d - Second) = d - Second :=
    wrap64_eq_self (by rw [hS] at hlow ⊢; omega) (by rw [hS]; omega)
  rw [tick_items, hw, getDHMS_of_nonpos (by rw [hS]; omega)]

theorem zero_texts (gl : String → Int → Int) :
    ((placeItems gl (mkItems (0, 0, 0, 0)) textOriginOffset []).2).map DrawText.text
      = ["days", "0", "hours", "0", "minutes", "0", "seconds", "0"] := rfl

theorem ticks_whole_getLast (gl : String → Int → Int) (n : ℕ)
    (hmax : (n : ℤ) * Second < 2 ^ 63) :
    (ticks gl gifDuration ((n : ℤ) * Second)).getLast?
      = some (tick gl (((n : ℤ) - ((min 29 n : ℕ) : ℤ)) * Second)) := by
  have hmin : min gifDuration (n + 1) = min 29 n + 1 := by
    unfold gifDuration
    omega
  rw [ticks_whole gl gifDuration n hmax, hmin, List.range_succ, List.map_append]
  simp

theorem getDHMS_whole_nat (s : ℕ) (hs : (s : ℤ) < 2 ^ 34) :
    getDaysHoursMinutesSeconds ((s : ℤ) * Second)
      = ((s : ℤ) / 86400, (s : ℤ) / 3600 % 24, (s : ℤ) / 60 % 60, (s : ℤ) % 60) :=
  getDHMS_whole (by omega) hs

theorem whole_getElem (gl : String → Int → Int) (s k : ℕ)
    (hmax : (s : ℤ) * Second < 2 ^ 63) (hk : k < min gifDuration (s + 1)) :
    (assemble gl ((s : ℤ) * Second)).2[k]? = some (tick gl (((s : ℤ) - (k : ℤ)) * Second)) := by
  rw [assemble_log, ticks_whole gl gifDuration s hmax, List.getElem?_map,
    List.getElem?_range hk]
  rfl

/-! ## The breakdown at `14749199999999999` nanoseconds -/

theorem hours_at_sample : Duration.Hours 14749199999999999 = 4097 := by
  have hq : Int.tdiv 14749199999999999 Hour = 4096 := by decide
  have hr : Int.tmod 14749199999999999 Hour = 3599999999999 := by decide
  have f1 : float64 4096 = 4096 := by
    have := float64_eq_self (n := 4096) (by norm_num) (by norm_num)
    simpa using this
  have f2 : float64 3599999999999 = 3599999999999 := by
    have := float64_eq_self (n := 3599999999999) (by norm_num) (by norm_num)
    simpa using this
  have r1 : roundF64 (3599999999999 / 3600000000000)
      = 9007199254738490 / 9007199254740992 := by
    rw [roundF64_eq_of (e := -53) (m := 9007199254738490) (by norm_num) (by norm_num)
      (by norm_num) (by norm_num) (by rw [abs_lt]; constructor <;> norm_num)]
    norm_num
  have r2 : roundF64 (4096 + 9007199254738490 / 9007199254740992) = 4097 := by
    rw [roundF64_eq_of (e := -40) (m := 4504699138998272) (by norm_num) (by norm_num)
      (by norm_num) (by norm_num) (by rw [abs_lt]; constructor <;> norm_num)]
    norm_num
  simp only [Duration.Hours, hq, hr, f1, f2, r1, r2]

theorem minutes_at_sample :
    Duration.Minutes 14749199999999999 = 8446310885621759 / 34359738368 := by
  have hq : Int.tdiv 14749199999999999 Minute = 245819 := by decide
  have hr : Int.tmod 14749199999999999 Minute = 59999999999 := by decide
  have f1 : float64 245819 = 245819 := by
    have := float64_eq_self (n := 245819) (by norm_num) (by norm_num)
    simpa using this
  have f2 : float64 59999999999 = 59999999999 := by
    have := float64_eq_self (n := 59999999999) (by norm_num) (by norm_num)
    simpa using this
  have r1 : roundF64 (59999999999 / 60000000000)
      = 9007199254590872 / 9007199254740992 := by
    rw [roundF64_eq_of (e := -53) (m := 9007199254590872) (by norm_num) (by norm_num)
      (by norm_num) (by norm_num) (by rw [abs_lt]; constructor <;> norm_num)]
    norm_num
  have r2 : roundF64 (245819 + 9007199254590872 / 9007199254740992)
      = 8446310885621759 / 34359738368 := by
    rw [roundF64_eq_of (e := -35) (m := 8446310885621759) (by norm_num) (by norm_num)
      (by norm_num) (by norm_num) (by rw [abs_lt]; constructor <;> norm_num)]
    norm_num
  simp only [Duration.Minutes, hq, hr, f1, f2, r1, r2]

theorem seconds_at_sample :
    Duration.Seconds 14749199999999999 = 7918416455270399 / 536870912 := by
  have hq : Int.tdiv 14749199999999999 Second = 14749199 := by decide
  have hr : Int.tmod 14749199999999999 Second = 999999999 := by decide
  have f1 : float64 14749199 = 14749199 := by
    have := float64_eq_self (n := 14749199) (by norm_num) (by norm_num)
    simpa using this
  have f2 : float64 999999999 = 999999999 := by
    have := float64_eq_self (n := 999999999) (by norm_num) (by norm_num)
    simpa using this
  have r1 : roundF64 (999999999 / 1000000000)
      = 9007199245733793 / 9007199254740992 := by
    rw [roundF64_eq_of (e := -53) (m := 9007199245733793) (by norm_num) (by norm_num)
      (by norm_num) (by norm_num) (by rw [abs_lt]; constructor <;> norm_num)]
    norm_num
  have r2 : roundF64 (14749199 + 9007199245733793 / 9007199254740992)
      = 7918416455270399 / 536870912 := by
    rw [roundF64_eq_of (e := -29) (m := 7918416455270399) (by norm_num) (by norm_num)
      (by norm_num) (by norm_num) (by rw [abs_lt]; constructor <;> norm_num)]
    norm_num
  simp only [Duration.Seconds, hq, hr, f1, f2, r1, r2]

theorem getDHMS_at_sample :
    getDaysHoursMinutesSeconds 14749199999999999 = (170, 17, 59, 59) := by
  have hd : int (roundF64 (4097 / 24)) = 170 := by
    have a1 : IsF64 ((170 : ℤ) : ℚ) := isF64_intCast (by norm_num)
    have a2 : IsF64 (683 / 4) := ⟨683, -2, by norm_num, by norm_num, by norm_num⟩
    have r1 := le_roundF64 (x := 4097 / 24) a1 (by norm_num) (by norm_num)
    have r2 := roundF64_le (x := 4097 / 24) a2 (by norm_num) (by norm_num)
    exact int_eq_of_mem (by norm_num) r1 (by push_cast; linarith)
  have hh : int 4097 = 4097 :=
    int_eq_of_mem (n := 4097) (by norm_num) (by norm_num) (by norm_num)
  have hm : int (8446310885621759 / 34359738368) = 245819 :=
    int_eq_of_mem (n := 245819) (by norm_num) (by norm_num) (by norm_num)
  have hs : int (7918416455270399 / 536870912) = 14749199 :=
    int_eq_of_mem (n := 14749199) (by norm_num) (by norm_num) (by norm_num)
  simp only [getDaysHoursMinutesSeconds, hours_at_sample, minutes_at_sample,
    seconds_at_sample, hd, hh, hm, hs]
  decide

theorem clamp_nonneg (t : ℤ) : 0 ≤ (if t < 0 then 0 else t) := by
  split_ifs <;> omega

theorem clamp_tmod_lt (x : ℤ) {b : ℤ} (hb : 0 < b) :
    (if Int.tmod x b < 0 then 0 else Int.tmod x b) < b := by
  have := Int.tmod_lt_of_pos x hb
  split_ifs <;> omega

theorem tdiv_two (x : ℤ) : Int.tdiv x 2 = if 0 ≤ x then x / 2 else -((-x) / 2) := by
  split_ifs with h
  · exact Int.tdiv_eq_ediv h (by norm_num)
  · have h1 := Int.neg_tdiv x 2
    have h2 := Int.tdiv_eq_ediv (a := -x) (b := 2) (by omega) (by norm_num)
    omega

/-! ## The claims about `getDaysHoursMinutesSeconds` -/

/-- C1: for every duration `D ≤ 0` (any signed nanosecond count that is zero or
negative) `getDaysHoursMinutesSeconds D` is `(0, 0, 0, 0)`: days, hours,
minutes and seconds are each clamped to zero, none is negative or wrapped. -/
theorem C1_nonpositive_duration_is_all_zero (D : ℤ) (hD : D ≤ 0) :
    getDaysHoursMinutesSeconds D = (0, 0, 0, 0) :=
  getDHMS_of_nonpos hD

theorem C1_nonpositive_duration_is_all_zero_witness :
    (-5000000001 : ℤ) ≤ 0 ∧ getDaysHoursMinutesSeconds (-5000000001) = (0, 0, 0, 0) :=
  ⟨by decide, C1_nonpositive_duration_is_all_zero (-5000000001) (by decide)⟩

/-- C2 as stated fails: at `D = 14749199999999999` ns (4096 h 59 min
59.999999999 s) the breakdown is `(170, 17, 59, 59)`, that is 14752799 s, an
hour more than the 14749199.999999999 s of `D`: the float `Hours` rounds
up to `4097` while `Minutes` and `Seconds` stay below the next integer. -/
theorem C2_sum_counterexample :
    (0 : ℤ) < 14749199999999999 ∧ (14749199999999999 : ℤ) < 2 ^ 63 ∧
    getDaysHoursMinutesSeconds 14749199999999999 = (170, 17, 59, 59) ∧
    (getDaysHoursMinutesSeconds 14749199999999999).1 * 86400
      + (getDaysHoursMinutesSeconds 14749199999999999).2.1 * 3600
      + (getDaysHoursMinutesSeconds 14749199999999999).2.2.1 * 60
      + (getDaysHoursMinutesSeconds 14749199999999999).2.2.2
      = 14749199999999999 / Second + 3600 := by
  refine ⟨by decide, by decide, getDHMS_at_sample, ?_⟩
  rw [getDHMS_at_sample]
  decide

/-- C2, amended: for every duration `D > 0` the breakdown has `days ≥ 0`,
`0 ≤ hours ≤ 23`, `0 ≤ minutes ≤ 59`, `0 ≤ seconds ≤ 59`; and
`days*86400 + hours*3600 + minutes*60 + seconds` equals the floor of `D` in
seconds (so it is within one second of `D`, and equals `D` exactly when `D` is
a whole number of seconds) whenever `D` is below `14749199999999999` ns, the
first duration at which it fails, or the sub-second part of `D` is at most
`999999000` ns. -/
theorem C2_ranges_and_floor_sum (D : ℤ) (hD : 0 < D) (hmax : D < 2 ^ 63) :
    0 ≤ (getDaysHoursMinutesSeconds D).1 ∧
    (0 ≤ (getDaysHoursMinutesSeconds D).2.1 ∧ (getDaysHoursMinutesSeconds D).2.1 ≤ 23) ∧
    (0 ≤ (getDaysHoursMinutesSeconds D).2.2.1 ∧ (getDaysHoursMinutesSeconds D).2.2.1 ≤ 59) ∧
    (0 ≤ (getDaysHoursMinutesSeconds D).2.2.2 ∧ (getDaysHoursMinutesSeconds D).2.2.2 ≤ 59) ∧
    (D < 14749199999999999 ∨ D % Second ≤ 999999000 →
      (getDaysHoursMinutesSeconds D).1 * 86400 + (getDaysHoursMinutesSeconds D).2.1 * 3600
        + (getDaysHoursMinutesSeconds D).2.2.1 * 60 + (getDaysHoursMinutesSeconds D).2.2.2
        = D / Second) := by
  have hh : (getDaysHoursMinutesSeconds D).2.1 < 24 := clamp_tmod_lt _ (by norm_num)
  have hm : (getDaysHoursMinutesSeconds D).2.2.1 < 60 := clamp_tmod_lt _ (by norm_num)
  have hs : (getDaysHoursMinutesSeconds D).2.2.2 < 60 := clamp_tmod_lt _ (by norm_num)
  exact ⟨clamp_nonneg _, ⟨clamp_nonneg _, by omega⟩, ⟨clamp_nonneg _, by omega⟩,
    ⟨clamp_nonneg _, by omega⟩, getDHMS_floor_sum hD hmax⟩

theorem C2_ranges_and_floor_sum_witness :
    (0 : ℤ) < 100500000000 ∧ (100500000000 : ℤ) < 2 ^ 63 ∧
    ((100500000000 : ℤ) < 14749199999999999 ∨ 100500000000 % Second ≤ 999999000) ∧
    (getDaysHoursMinutesSeconds 100500000000).1 * 86400
      + (getDaysHoursMinutesSeconds 100500000000).2.1 * 3600
      + (getDaysHoursMinutesSeconds 100500000000).2.2.1 * 60
      + (getDaysHoursMinutesSeconds 100500000000).2.2.2 = 100500000000 / Second ∧
    ((9223372035854775807 : ℤ) < 14749199999999999 ∨
      9223372035854775807 % Second ≤ 999999000) ∧
    (getDaysHoursMinutesSeconds 9223372035854775807).1 * 86400
      + (getDaysHoursMinutesSeconds 9223372035854775807).2.1 * 3600
      + (getDaysHoursMinutesSeconds 9223372035854775807).2.2.1 * 60
      + (getDaysHoursMinutesSeconds 9223372035854775807).2.2.2
      = 9223372035854775807 / Second :=
  ⟨by decide, by decide, Or.inl (by decide),
    (C2_ranges_and_floor_sum 100500000000 (by decide) (by decide)).2.2.2.2
      (Or.inl (by decide)),
    Or.inr (by decide),
    (C2_ranges_and_floor_sum 9223372035854775807 (by decide) (by decide)).2.2.2.2
      (Or.inr (by decide))⟩

/-! ## The claims about `drawGroup` and the layout cursor -/

/-- C7 as stated fails: with a label 60 px wide and a value 25 px wide the
value is drawn at `xOffset + 18` (`60/2 - 25/2 = 30 - 12`), not at
`xOffset + (60 - 25)/2 = xOffset + 17`. -/
theorem C7_centering_counterexample :
    0 ≤ monoLength "days" labelSize ∧ 0 ≤ monoLength "0" fontSize ∧
    (drawGroup monoLength 50 50 "days" "0").map DrawText.xOffset = [50, 68] ∧
    50 + Int.tdiv (monoLength "days" labelSize - monoLength "0" fontSize) 2 = 67 := by
  decide

/-- C7, amended: `drawGroup` draws the label at `xOffset` and the value at
`xOffset + (Lw/2 - Vw/2)`, where `Lw` is the label width at `labelSize`,
`Vw` the value width at `fontSize` and each width is halved on its own by
truncating integer division; this offset differs from `(Lw - Vw)/2` by at most
one. -/
theorem C7_centering_halves_each_width (gl : String → Int → Int) (xOffset yOffset : Int)
    (labelText valueText : String) :
    (drawGroup gl xOffset yOffset labelText valueText).map DrawText.xOffset
      = [xOffset, xOffset + (Int.tdiv (gl labelText labelSize) 2
          - Int.tdiv (gl valueText fontSize) 2)] ∧
    |(Int.tdiv (gl labelText labelSize) 2 - Int.tdiv (gl valueText fontSize) 2)
      - Int.tdiv (gl labelText labelSize - gl valueText fontSize) 2| ≤ 1 := by
  refine ⟨rfl, ?_⟩
  rw [tdiv_two (gl labelText labelSize), tdiv_two (gl valueText fontSize),
    tdiv_two (gl labelText labelSize - gl valueText fontSize), abs_le]
  split_ifs <;> constructor <;> omega

/-- C8 as stated fails: the label baseline lies `35 = valLabelPadding +
labelSize` below the value baseline, not `45 = valLabelPadding + fontSize`. -/
theorem C8_stacking_counterexample :
    (drawGroup monoLength 50 50 "days" "0").map DrawText.yOffset = [110, 75] ∧
    (110 : ℤ) - 75 ≠ valLabelPadding + fontSize := by
  decide

/-- C8, amended: for every `xOffset` and `yOffset`, `drawGroup` places the
label baseline below the value baseline by exactly `valLabelPadding +
labelSize`, the padding constant plus the label point size (`20 + 15 = 35`). -/
theorem C8_label_below_value (gl : String → Int → Int) (xOffset yOffset : Int)
    (labelText valueText : String) :
    ∃ label value, drawGroup gl xOffset yOffset labelText valueText = [label, value] ∧
      label.text = labelText ∧ value.text = valueText ∧
      label.yOffset - value.yOffset = valLabelPadding + labelSize ∧
      valLabelPadding + labelSize = 35 := by
  refine ⟨_, _, rfl, rfl, rfl, ?_, by decide⟩
  show yOffset + fontSize + labelSize + valLabelPadding - (yOffset + fontSize)
    = valLabelPadding + labelSize
  ring

/-- C9 as stated fails: after the group "days" the cursor moves from 50 to
150, half of the label width measured at `fontSize` (100 px) plus 50, not to
130, half of the width measured at `labelSize` (60 px) plus 50. -/
theorem C9_cursor_counterexample :
    (placeItem monoLength 50 (Item.mk "days" 0)).1 = 150 ∧
    50 + Int.tdiv (monoLength "days" labelSize) 2 + groupPadding = 130 := by
  decide

/-- C9, amended: after a group is placed the layout cursor advances by half of
the label text's width measured at the value point size `fontSize` (not the
`labelSize` measurement `drawGroup` centres with) plus `groupPadding = 50`:
`xOffset' = xOffset + getLength(label, fontSize)/2 + groupPadding`, for any
text-measuring function; the four groups of a frame are drawn at the cursors
so obtained from `textOriginOffset`. -/
theorem C9_cursor_advance (gl : String → Int → Int) (xOffset : Int) (item : Item)
    (t : Int × Int × Int × Int) :
    (placeItem gl xOffset item).1
      = xOffset + Int.tdiv (gl item.Label fontSize) 2 + groupPadding ∧
    groupPadding = 50 ∧
    (placeItems gl (mkItems t) textOriginOffset []).2
      = drawGroup gl 50 50 "days" (toString t.1)
        ++ drawGroup gl (50 + Int.tdiv (gl "days" fontSize) 2 + 50) 50 "hours"
            (toString t.2.1)
        ++ drawGroup gl (50 + Int.tdiv (gl "days" fontSize) 2 + 50
            + Int.tdiv (gl "hours" fontSize) 2 + 50) 50 "minutes" (toString t.2.2.1)
        ++ drawGroup gl (50 + Int.tdiv (gl "days" fontSize) 2 + 50
            + Int.tdiv (gl "hours" fontSize) 2 + 50
            + Int.tdiv (gl "minutes" fontSize) 2 + 50) 50 "seconds" (toString t.2.2.2) := by
  refine ⟨?_, rfl, ?_⟩
  · simp only [placeItem]
    ring
  · simp only [placeItems, placeItem, mkItems, textOriginOffset, groupPadding,
      List.nil_append, List.append_assoc]
    simp only [add_assoc]

/-! ## The claims about the tick loop -/

/-- C3 as stated fails: a 90-second countdown runs out of its 30 ticks first;
its last frame is not expired, it is black and shows `(0, 0, 1, 0)`. -/
theorem C3_termination_counterexample :
    ∃ t, (assemble monoLength (90 * Second)).2.getLast? = some t ∧ t.expired = false ∧
      t.img.Palette = [Color.White, Color.RGBA 0 0 0 255] ∧
      t.items = mkItems (0, 0, 1, 0) := by
  have h := ticks_whole_getLast monoLength 90 (by decide)
  have hd : ((90 : ℕ) : ℤ) * Second = 90 * Second := rfl
  have he : (((90 : ℕ) : ℤ) - ((min 29 90 : ℕ) : ℤ)) * Second = 61 * Second := by decide
  rw [hd, he] at h
  refine ⟨_, by rw [assemble_log]; exact h, by rw [tick_expired]; decide, ?_, ?_⟩
  · rw [tick_palette]
    decide
  · have hw : wrap64 (61 * Second - Second) = ((60 : ℕ) : ℤ) * Second := by decide
    rw [tick_items, hw, getDHMS_whole_nat 60 (by decide)]
    decide

/-- C3, amended: for every starting remaining duration of `n` whole seconds the
number of frames never exceeds the tick budget `gifDuration` (30), every frame
before the last has `expired = false`, and the last frame has `expired = true`
exactly when `n ≤ 29`; from 30 seconds on the tick budget ends the loop before
the countdown expires. -/
theorem C3_termination (gl : String → Int → Int) (n : ℕ) (hmax : (n : ℤ) * Second < 2 ^ 63) :
    (assemble gl ((n : ℤ) * Second)).2.length ≤ gifDuration ∧
    (∀ k t, k + 1 < (assemble gl ((n : ℤ) * Second)).2.length →
      (assemble gl ((n : ℤ) * Second)).2[k]? = some t → t.expired = false) ∧
    (∃ t, (assemble gl ((n : ℤ) * Second)).2.getLast? = some t ∧
      (t.expired = true ↔ n ≤ 29)) := by
  have hS : Second = 1000000000 := rfl
  rw [assemble_log]
  refine ⟨ticks_length_le gl _ _, ?_, ?_⟩
  · intro k t hk ht
    have hpos := ticks_pos_of_not_last gl _ _ hmax k hk
    have hget := ticks_getElem gl gifDuration ((n : ℤ) * Second) hmax k
      (Nat.lt_of_succ_lt hk)
    rw [ht] at hget
    rw [Option.some.inj hget, tick_expired]
    exact decide_eq_false (by omega)
  · refine ⟨_, ticks_whole_getLast gl n hmax, ?_⟩
    rw [tick_expired, decide_eq_true_iff, hS]
    constructor <;> intro h <;> omega

theorem C3_termination_witness :
    ((5 : ℕ) : ℤ) * Second < 2 ^ 63 ∧
    (∃ t, (assemble monoLength (((5 : ℕ) : ℤ) * Second)).2.getLast? = some t ∧
      (t.expired = true ↔ 5 ≤ 29)) :=
  ⟨by decide, (C3_termination monoLength 5 (by decide)).2.2⟩

/-- C4: for every target instant equal to or before the current instant the
target is clamped to the current instant (remaining duration 0) and the
sequence has exactly one frame, with delay 100; that frame has the muted
foreground colour `RGBA(210,210,210,255)` and displays days = hours = minutes
= seconds = 0. -/
theorem C4_past_target_single_muted_frame (gl : String → Int → Int)
    (targetDate currentDate : ℤ) (h : targetDate ≤ currentDate) :
    remaining targetDate currentDate = 0 ∧
    ∃ t, assemble gl (remaining targetDate currentDate) = (GIF.mk [t.img] [100], [t]) ∧
      t.expired = true ∧
      t.img.Palette = [Color.White, Color.RGBA 210 210 210 255] ∧
      t.items = mkItems (0, 0, 0, 0) ∧
      t.img.drawn = (placeItems gl (mkItems (0, 0, 0, 0)) textOriginOffset []).2 ∧
      t.img.drawn.map DrawText.text
        = ["days", "0", "hours", "0", "minutes", "0", "seconds", "0"] := by
  have hrem : remaining targetDate currentDate = 0 := by
    have hsub : Time.Sub currentDate currentDate = 0 := by
      simp only [Time.Sub, sub_self, zero_mul]
      decide
    unfold remaining
    by_cases hlt : targetDate < currentDate
    · simp only [hlt, if_true]
      exact hsub
    · have heq : targetDate = currentDate := by omega
      subst heq
      simp only [lt_irrefl, if_false]
      exact hsub
  have hgd : gifDuration = 29 + 1 := rfl
  have hitems : (tick gl 0).items = mkItems (0, 0, 0, 0) :=
    tick_items_of_nonpos gl le_rfl (by decide)
  have hdrawn : (tick gl 0).img.drawn
      = (placeItems gl (mkItems (0, 0, 0, 0)) textOriginOffset []).2 := by
    rw [tick_drawn, hitems]
  refine ⟨hrem, tick gl 0, ?_, rfl, ?_, hitems, hdrawn, ?_⟩
  · rw [hrem, assemble_eq, hgd, ticks_succ_of_nonpos gl 29 le_rfl]
    rfl
  · rw [tick_palette]
    rfl
  · rw [hdrawn]
    exact zero_texts gl

theorem C4_past_target_single_muted_frame_witness :
    (1700000000 : ℤ) ≤ 1700000060 ∧ remaining 1700000000 1700000060 = 0 :=
  ⟨by decide, (C4_past_target_single_muted_frame monoLength 1700000000 1700000060
    (by decide)).1⟩

/-- C5, the example as stated fails: the 90-second run has 30 frames; the
frame decomposing 60 s is the 30th and last one, it shows `(0, 0, 1, 0)`, no
frame follows it and no frame of the run shows `(0, 0, 0, 59)`. -/
theorem C5_example_counterexample :
    (assemble monoLength (90 * Second)).2.length = 30 ∧
    (∃ t, (assemble monoLength (90 * Second)).2[29]? = some t ∧
      t.items = mkItems (0, 0, 1, 0)) ∧
    (assemble monoLength (90 * Second)).2[30]? = none ∧
    ∀ t ∈ (assemble monoLength (90 * Second)).2, t.items ≠ mkItems (0, 0, 0, 59) := by
  have hS : Second = 1000000000 := rfl
  have hlog : (assemble monoLength (90 * Second)).2
      = (List.range 30).map
          (fun (k : ℕ) => tick monoLength ((((90 : ℕ) : ℤ) - (k : ℤ)) * Second)) := by
    have h := ticks_whole monoLength gifDuration 90 (by decide)
    rw [show min gifDuration (90 + 1) = 30 from by decide] at h
    rw [assemble_log]
    exact h
  have hlen : (assemble monoLength (90 * Second)).2.length = 30 := by
    rw [hlog]
    simp
  refine ⟨hlen, ?_, ?_, ?_⟩
  · have g : (assemble monoLength (90 * Second)).2[29]? = some _ :=
      whole_getElem monoLength 90 29 (by decide) (by decide)
    refine ⟨_, g, ?_⟩
    have hw : wrap64 ((((90 : ℕ) : ℤ) - ((29 : ℕ) : ℤ)) * Second - Second)
        = ((60 : ℕ) : ℤ) * Second := by decide
    rw [tick_items, hw, getDHMS_whole_nat 60 (by decide)]
    decide
  · rw [List.getElem?_eq_none (by rw [hlen])]
  · rw [hlog]
    intro t ht
    obtain ⟨k, hk, rfl⟩ := List.mem_map.mp ht
    have hk30 := List.mem_range.mp hk
    have hw : wrap64 ((((90 : ℕ) : ℤ) - (k : ℤ)) * Second - Second)
        = ((89 - k : ℕ) : ℤ) * Second := by
      rw [wrap64_eq_self (by rw [hS]; omega) (by rw [hS]; omega), hS]
      omega
    rw [tick_items, hw, getDHMS_whole_nat (89 - k) (by omega)]
    intro h
    have h3 := congrArg (fun l => l.map Item.Value) h
    simp only [mkItems, List.map, List.cons.injEq] at h3
    omega

/-- C5, amended: for every starting remaining duration `D` and every frame index
`k` present in the sequence, frame `k` displays
`getDaysHoursMinutesSeconds (D - (k+1) seconds)`: the duration is decremented
by one second before it is decomposed, while the frame's `expired` flag is
computed from `D - k seconds`.  (`D` ranges over the durations for which the
first decrement does not overflow `int64`.)  For `D = 90 s` the first frame
shows `(0, 0, 1, 29)` and the 30th and last frame, which decomposes 60 s,
shows `(0, 0, 1, 0)`; the frame showing `(0, 0, 0, 59)` follows the one showing
`(0, 0, 1, 0)` in a run the tick budget does not cut short, as for `D = 61 s`. -/
theorem C5_frame_shows_decremented_duration (gl : String → Int → Int) (D : ℤ) (k : ℕ)
    (t : Tick) (h1 : -2 ^ 63 + Second ≤ D) (h2 : D < 2 ^ 63)
    (ht : (assemble gl D).2[k]? = some t) :
    t.items = mkItems (getDaysHoursMinutesSeconds (D - (k + 1) * Second)) ∧
    t.expired = decide (D - k * Second ≤ 0) ∧
    (assemble gl D).1.Image[k]? = some t.img ∧
    t.img.drawn = (placeItems gl t.items textOriginOffset []).2 := by
  rw [assemble_log] at ht
  obtain ⟨e1, e2⟩ := tick_at gl _ D k t h1 h2 ht
  refine ⟨e2, ?_, ?_, ?_⟩
  · rw [e1, tick_expired]
  · rw [assemble_image, List.getElem?_map, ht]
    rfl
  · rw [e1]
    rfl

theorem C5_frame_shows_decremented_duration_witness :
    (∃ t, (assemble monoLength (90 * Second)).2[0]? = some t ∧
      t.items = mkItems (0, 0, 1, 29) ∧ t.expired = false) ∧
    (∃ t, (assemble monoLength (90 * Second)).2[29]? = some t ∧
      t.items = mkItems (0, 0, 1, 0) ∧ t.expired = false) ∧
    (∃ t, (assemble monoLength (61 * Second)).2[0]? = some t ∧
      t.items = mkItems (0, 0, 1, 0)) ∧
    (∃ t, (assemble monoLength (61 * Second)).2[1]? = some t ∧
      t.items = mkItems (0, 0, 0, 59)) := by
  have g90 : (assemble monoLength (90 * Second)).2[0]? = some _ :=
    whole_getElem monoLength 90 0 (by decide) (by decide)
  have g90b : (assemble monoLength (90 * Second)).2[29]? = some _ :=
    whole_getElem monoLength 90 29 (by decide) (by decide)
  have g61 : (assemble monoLength (61 * Second)).2[0]? = some _ :=
    whole_getElem monoLength 61 0 (by decide) (by decide)
  have g61b : (assemble monoLength (61 * Second)).2[1]? = some _ :=
    whole_getElem monoLength 61 1 (by decide) (by decide)
  have a := C5_frame_shows_decremented_duration monoLength (90 * Second) 0 _
    (by decide) (by decide) g90
  have a2 := C5_frame_shows_decremented_duration monoLength (90 * Second) 29 _
    (by decide) (by decide) g90b
  have b := C5_frame_shows_decremented_duration monoLength (61 * Second) 0 _
    (by decide) (by decide) g61
  have c := C5_frame_shows_decremented_duration monoLength (61 * Second) 1 _
    (by decide) (by decide) g61b
  have e89 : (90 : ℤ) * Second - (((0 : ℕ) : ℤ) + 1) * Second = ((89 : ℕ) : ℤ) * Second := by
    decide
  have e60b : (90 : ℤ) * Second - (((29 : ℕ) : ℤ) + 1) * Second
      = ((60 : ℕ) : ℤ) * Second := by
    decide
  have e60 : (61 : ℤ) * Second - (((0 : ℕ) : ℤ) + 1) * Second = ((60 : ℕ) : ℤ) * Second := by
    decide
  have e59 : (61 : ℤ) * Second - (((1 : ℕ) : ℤ) + 1) * Second = ((59 : ℕ) : ℤ) * Second := by
    decide
  refine ⟨⟨_, g90, ?_, ?_⟩, ⟨_, g90b, ?_, ?_⟩, ⟨_, g61, ?_⟩, ⟨_, g61b, ?_⟩⟩
  · rw [a.1, e89, getDHMS_whole_nat 89 (by decide)]
    decide
  · rw [a.2.1]
    decide
  · rw [a2.1, e60b, getDHMS_whole_nat 60 (by decide)]
    decide
  · rw [a2.2.1]
    decide
  · rw [b.1, e60, getDHMS_whole_nat 60 (by decide)]
    decide
  · rw [c.1, e59, getDHMS_whole_nat 59 (by decide)]
    decide

/-- C6: for every starting remaining duration `D ≥ 0` and every frame of the
produced sequence, the frame's foreground palette entry is the muted colour
`RGBA(210,210,210,255)` exactly when the remaining duration at the start of
that tick is `≤ 0` (otherwise it is black `RGBA(0,0,0,255)`), and every frame
rendered in the muted colour displays all four fields as 0. -/
theorem C6_muted_exactly_when_expired (gl : String → Int → Int) (D : ℤ) (k : ℕ) (t : Tick)
    (h0 : 0 ≤ D) (h2 : D < 2 ^ 63) (ht : (assemble gl D).2[k]? = some t) :
    (assemble gl D).1.Image[k]? = some t.img ∧
    t.img.Palette = [Color.White,
      if D - k * Second ≤ 0 then Color.RGBA 210 210 210 255 else Color.RGBA 0 0 0 255] ∧
    (t.img.Palette = [Color.White, Color.RGBA 210 210 210 255] →
      t.items = mkItems (0, 0, 0, 0) ∧
      t.img.drawn.map DrawText.text
        = ["days", "0", "hours", "0", "minutes", "0", "seconds", "0"]) := by
  have hS : Second = 1000000000 := rfl
  have himg : (assemble gl D).1.Image[k]? = some t.img := by
    rw [assemble_image, List.getElem?_map, ← assemble_log, ht]
    rfl
  rw [assemble_log] at ht
  have hk := lt_length_of_getElem ht
  have hk30 : k < 30 := lt_of_lt_of_le hk (ticks_length_le gl _ _)
  obtain ⟨e1, _⟩ := tick_at gl _ D k t (by rw [hS]; omega) h2 ht
  refine ⟨himg, by rw [e1, tick_palette], ?_⟩
  intro hp
  rw [e1, tick_palette] at hp
  by_cases hd : D - k * Second ≤ 0
  · have hitems : (tick gl (D - k * Second)).items = mkItems (0, 0, 0, 0) :=
      tick_items_of_nonpos gl hd (by rw [hS]; omega)
    rw [e1]
    refine ⟨hitems, ?_⟩
    rw [tick_drawn, hitems]
    exact zero_texts gl
  · rw [if_neg hd] at hp
    exact absurd hp (by decide)

theorem C6_muted_exactly_when_expired_witness :
    (0 : ℤ) ≤ 2 * Second ∧ 2 * Second < 2 ^ 63 ∧
    ∃ t, (assemble monoLength (2 * Second)).2[2]? = some t ∧
      t.img.Palette = [Color.White,
        if 2 * Second - ((2 : ℕ) : ℤ) * Second ≤ 0 then Color.RGBA 210 210 210 255
        else Color.RGBA 0 0 0 255] := by
  have g : (assemble monoLength (2 * Second)).2[2]? = some _ :=
    whole_getElem monoLength 2 2 (by decide) (by decide)
  exact ⟨by decide, by decide, _, g,
    (C6_muted_exactly_when_expired monoLength (2 * Second) 2 _ (by decide) (by decide) g).2.1⟩

/-- C10: for every starting remaining duration of `n` whole seconds the tick
loop appends exactly `min (n + 1) gifDuration = min (n + 1) 30` frames, the
image list and the delay list have that same length, and every delay equals
100; the sequence is never empty and it contains an expired frame if and only
if `n ≤ 29`. -/
theorem C10_frame_count (gl : String → Int → Int) (n : ℕ)
    (hmax : (n : ℤ) * Second < 2 ^ 63) :
    (assemble gl ((n : ℤ) * Second)).1.Image.length = min (n + 1) gifDuration ∧
    (assemble gl ((n : ℤ) * Second)).1.Delay.length = min (n + 1) gifDuration ∧
    gifDuration = 30 ∧
    (∀ x ∈ (assemble gl ((n : ℤ) * Second)).1.Delay, x = 100) ∧
    (assemble gl ((n : ℤ) * Second)).1.Image ≠ [] ∧
    ((∃ t ∈ (assemble gl ((n : ℤ) * Second)).2, t.expired = true) ↔ n ≤ 29) := by
  have hS : Second = 1000000000 := rfl
  have hg : gifDuration = 30 := rfl
  have hlen : (ticks gl gifDuration ((n : ℤ) * Second)).length = min (n + 1) gifDuration := by
    rw [ticks_whole gl gifDuration n hmax, List.length_map, List.length_range, Nat.min_comm]
  have hI : (assemble gl ((n : ℤ) * Second)).1.Image.length = min (n + 1) gifDuration := by
    rw [assemble_image, List.length_map, hlen]
  refine ⟨hI, ?_, hg, ?_, ?_, ?_⟩
  · rw [assemble_delay, List.length_map, hlen]
  · rw [assemble_delay]
    intro x hx
    obtain ⟨_, _, rfl⟩ := List.mem_map.mp hx
    rfl
  · intro hnil
    rw [hnil, hg] at hI
    simp at hI
    omega
  · rw [assemble_log, ticks_whole gl gifDuration n hmax]
    constructor
    · rintro ⟨t, ht, he⟩
      obtain ⟨k, hk, rfl⟩ := List.mem_map.mp ht
      rw [tick_expired, decide_eq_true_iff, hS] at he
      have := List.mem_range.mp hk
      rw [hg] at this
      omega
    · intro h
      refine ⟨_, List.mem_map.mpr ⟨n, List.mem_range.mpr (by rw [hg]; omega), rfl⟩, ?_⟩
      rw [tick_expired]
      simp

theorem C10_frame_count_witness :
    ((90 : ℕ) : ℤ) * Second < 2 ^ 63 ∧
    (assemble monoLength (((90 : ℕ) : ℤ) * Second)).1.Image.length = min (90 + 1) gifDuration :=
  ⟨by decide, (C10_frame_count monoLength 90 (by decide)).1⟩

end Countdown
